import Mathlib

/-!
Verification of the GraXpertSuite4PixInsight release-packaging tool
(`builder.py`) against its natural-language specification.

The development shallowly embeds the program's string algorithms on
`List Char` (Python `str.replace`, `str.strip`, `str.split`, the two
regular-expression extractors) and its file-system behaviour as an explicit
event trace.  Python exceptions become `Except String` / `Option` values
carrying the exact message strings the program formats.
-/

namespace Builder

/-! ### Basic character and string utilities -/

/-- Python whitespace characters (ASCII range), as stripped by `str.strip()`
and matched by the regex class `\s`. -/
def isPySpace (c : Char) : Bool :=
  c.toNat = 32 || c.toNat = 9 || c.toNat = 10 || c.toNat = 13 || c.toNat = 11 || c.toNat = 12

/-- `str.strip()`: remove leading and trailing whitespace. -/
def stripChars (s : List Char) : List Char :=
  ((s.dropWhile isPySpace).reverse.dropWhile isPySpace).reverse

/-- Split on a separator character; like Python `str.split(sep)` this yields
`n+1` pieces for `n` separators (and `[[]]` on the empty string). -/
def splitOnChar (sep : Char) : List Char → List (List Char)
  | [] => [[]]
  | c :: s =>
    if c = sep then [] :: splitOnChar sep s
    else
      match splitOnChar sep s with
      | [] => [[c]]
      | h :: t => (c :: h) :: t

/-- Python `str.startswith`. -/
def pyStartsWith (p s : String) : Bool := p.data.isPrefixOf s.data

/-- `os.path.join` for the two-argument POSIX case used by the program
(components never end in a slash). -/
def joinPath (a b : String) : String := a ++ "/" ++ b

/-- `os.path.basename`: the part after the last slash. -/
def basename (s : String) : String :=
  String.mk ((splitOnChar '/' s.data).getLastD [])

/-! ### Python `str.replace` (replace all occurrences, left to right)

`replaceAll p r s` replaces every non-overlapping occurrence of `p` in `s`
by `r`, scanning left to right, exactly like Python's `s.replace(p, r)` for
a non-empty pattern `p` (the program only ever replaces non-empty literal
tokens). -/

/-- Scanning core, structurally recursive on a fuel bound (the fuel is
always at least the input length, so it never runs out; the `0, s => s` arm
is unreachable). -/
def replaceAllFuel (p r : List Char) : Nat → List Char → List Char
  | _, [] => []
  | 0, s => s
  | Nat.succ n, c :: s =>
    if p ≠ [] ∧ p <+: (c :: s) then
      r ++ replaceAllFuel p r n ((c :: s).drop p.length)
    else
      c :: replaceAllFuel p r n s

def replaceAll (p r s : List Char) : List Char := replaceAllFuel p r s.length s

theorem replaceAllFuel_congr (p r : List Char) :
    ∀ (n m : Nat) (s : List Char), s.length ≤ n → s.length ≤ m →
      replaceAllFuel p r n s = replaceAllFuel p r m s := by
  intro n
  induction n with
  | zero =>
    intro m s hn _
    have : s = [] := List.eq_nil_of_length_eq_zero (Nat.le_zero.mp hn)
    subst this
    cases m <;> rfl
  | succ n ih =>
    intro m s hn hm
    match s with
    | [] => cases m <;> rfl
    | c :: s' =>
      match m with
      | 0 => simp at hm
      | Nat.succ m' =>
        show (if p ≠ [] ∧ p <+: (c :: s') then
            r ++ replaceAllFuel p r n ((c :: s').drop p.length)
          else c :: replaceAllFuel p r n s') =
          (if p ≠ [] ∧ p <+: (c :: s') then
            r ++ replaceAllFuel p r m' ((c :: s').drop p.length)
          else c :: replaceAllFuel p r m' s')
        by_cases hbr : p ≠ [] ∧ p <+: (c :: s')
        · rw [if_pos hbr, if_pos hbr]
          have hp : 0 < p.length := List.length_pos.mpr hbr.1
          have hlen : ((c :: s').drop p.length).length ≤ n := by
            simp only [List.length_drop, List.length_cons]
            simp only [List.length_cons] at hn
            omega
          have hlen' : ((c :: s').drop p.length).length ≤ m' := by
            simp only [List.length_drop, List.length_cons]
            simp only [List.length_cons] at hm
            omega
          rw [ih m' _ hlen hlen']
        · rw [if_neg hbr, if_neg hbr]
          have hlen : s'.length ≤ n := by
            simp only [List.length_cons] at hn
            omega
          have hlen' : s'.length ≤ m' := by
            simp only [List.length_cons] at hm
            omega
          rw [ih m' s' hlen hlen']

theorem replaceAll_nil (p r : List Char) : replaceAll p r [] = [] := rfl

theorem replaceAll_cons_pos (p r : List Char) (c : Char) (s : List Char)
    (hp : p ≠ []) (hpre : p <+: (c :: s)) :
    replaceAll p r (c :: s) = r ++ replaceAll p r ((c :: s).drop p.length) := by
  show (if p ≠ [] ∧ p <+: (c :: s) then
      r ++ replaceAllFuel p r s.length ((c :: s).drop p.length)
    else c :: replaceAllFuel p r s.length s) = _
  rw [if_pos ⟨hp, hpre⟩]
  unfold replaceAll
  have hlen : ((c :: s).drop p.length).length ≤ s.length := by
    have : 0 < p.length := List.length_pos.mpr hp
    simp only [List.length_drop, List.length_cons]
    omega
  rw [replaceAllFuel_congr p r s.length ((c :: s).drop p.length).length _ hlen le_rfl]

theorem replaceAll_cons_neg (p r : List Char) (c : Char) (s : List Char)
    (h : ¬ (p ≠ [] ∧ p <+: (c :: s))) :
    replaceAll p r (c :: s) = c :: replaceAll p r s := by
  show (if p ≠ [] ∧ p <+: (c :: s) then
      r ++ replaceAllFuel p r s.length ((c :: s).drop p.length)
    else c :: replaceAllFuel p r s.length s) = _
  rw [if_neg h]
  rfl

/-- Safety condition for substitution: replacing any pattern by the value `r`
can neither retain nor create an occurrence of the token `q`.  Used to state
under which proviso the descriptor generator's output is token-free. -/
def SafeIns (q r : List Char) : Prop :=
  r ≠ [] ∧ ¬ q <:+: r ∧
  (∀ q' ∈ q.inits, q' ≠ [] → ¬ q' <:+ r) ∧
  (∀ q' ∈ q.tails, q' ≠ [] → ¬ q' <+: r) ∧
  ¬ r <:+: q

instance (q r : List Char) : Decidable (SafeIns q r) := by
  unfold SafeIns; infer_instance

/-- Decompose a prefix of an append. -/
theorem prefix_append_split {q r t : List Char} (h : q <+: r ++ t) :
    q <+: r ∨ ∃ w, q = r ++ w ∧ w <+: t := by
  obtain ⟨u, hu⟩ := h
  rcases List.append_eq_append_iff.mp hu with ⟨w, hw1, _⟩ | ⟨w, hw1, hw2⟩
  · exact Or.inl ⟨w, hw1.symm⟩
  · exact Or.inr ⟨w, hw1, ⟨u, hw2.symm⟩⟩

/-- If no nonempty prefix of `q` is a suffix of `r` and `q` itself does not
occur inside `r`, then an occurrence of `q` in `r ++ t` lies inside `t`. -/
theorem infix_append_right_of_safe {q r t : List Char}
    (hni : ¬ q <:+: r) (hin : ∀ q' ∈ q.inits, q' ≠ [] → ¬ q' <:+ r)
    (h : q <:+: r ++ t) : q <:+: t := by
  obtain ⟨u, v, huv⟩ := h
  rcases List.append_eq_append_iff.mp huv with ⟨w, hw1, _⟩ | ⟨w, hw1, hw2⟩
  · -- r = (u ++ q) ++ w
    exact absurd ⟨u, w, by rw [← hw1]⟩ hni
  · -- u ++ q = r ++ w, t = w ++ v
    rcases List.append_eq_append_iff.mp hw1 with ⟨x, hx1, hx2⟩ | ⟨x, hx1, hx2⟩
    · -- r = u ++ x, q = x ++ w
      by_cases hx : x = []
      · subst hx
        simp only [List.nil_append] at hx2
        exact ⟨[], v, by simp [hw2, ← hx2]⟩
      · exact absurd (show x <:+ r from ⟨u, hx1.symm⟩)
          (hin x ((List.mem_inits x q).mpr ⟨w, hx2.symm⟩) hx)
    · -- u = r ++ x, w = x ++ q
      exact ⟨x, v, by rw [hw2, hx2, List.append_assoc]⟩

/-- A prefix of the output of `replaceAll` that is a suffix-part of the token
`q` must already be a prefix of the input (no such fragment is ever created
at a replacement boundary). -/
theorem prefix_transfer {p r q : List Char}
    (htl : ∀ q' ∈ q.tails, q' ≠ [] → ¬ q' <+: r) (hrq : ¬ r <:+: q) :
    ∀ s q', q' <:+ q → q' ≠ [] → q' <+: replaceAll p r s → q' <+: s := by
  suffices hfuel : ∀ n (s : List Char), s.length ≤ n → ∀ q', q' <:+ q → q' ≠ [] →
      q' <+: replaceAll p r s → q' <+: s by
    exact fun s => hfuel s.length s le_rfl
  intro n
  induction n with
  | zero =>
    intro s hs q' _ hne hpre
    have hnil : s = [] := List.eq_nil_of_length_eq_zero (Nat.le_zero.mp hs)
    subst hnil
    rw [replaceAll_nil] at hpre
    exact absurd (List.prefix_nil.mp hpre) hne
  | succ n ih =>
    intro s hs q' hsuf hne hpre
    match s with
    | [] =>
      rw [replaceAll_nil] at hpre
      exact absurd (List.prefix_nil.mp hpre) hne
    | c :: s' =>
      by_cases hbr : p ≠ [] ∧ p <+: (c :: s')
      · rw [replaceAll_cons_pos p r c s' hbr.1 hbr.2] at hpre
        rcases prefix_append_split hpre with hqr | ⟨w, hqw, _⟩
        · exact absurd hqr (htl q' ((List.mem_tails q' q).mpr hsuf) hne)
        · exact absurd ((show r <+: q' from ⟨w, hqw.symm⟩).isInfix.trans hsuf.isInfix) hrq
      · rw [replaceAll_cons_neg p r c s' hbr] at hpre
        cases q' with
        | nil => exact absurd rfl hne
        | cons a q'' =>
          obtain ⟨hac, hq''⟩ := List.cons_prefix_cons.mp hpre
          subst hac
          by_cases hq : q'' = []
          · subst hq
            exact ⟨s', rfl⟩
          · have hsuf'' : q'' <:+ q := (List.suffix_cons a q'').trans hsuf
            have hlen : s'.length ≤ n := by
              simp only [List.length_cons] at hs; omega
            exact List.cons_prefix_cons.mpr ⟨rfl, ih s' hlen q'' hsuf'' hq hq''⟩

/-- The token `p` never occurs in the output of replacing `p` by an
insertion-safe value `r` (Python `str.replace` removes all occurrences and,
under `SafeIns`, cannot create new ones). -/
theorem not_infix_replaceAll {p r : List Char} (hp : p ≠ []) (S : SafeIns p r) :
    ∀ s, ¬ p <:+: replaceAll p r s := by
  suffices hfuel : ∀ n (s : List Char), s.length ≤ n → ¬ p <:+: replaceAll p r s by
    exact fun s => hfuel s.length s le_rfl
  intro n
  induction n with
  | zero =>
    intro s hs h
    have hnil : s = [] := List.eq_nil_of_length_eq_zero (Nat.le_zero.mp hs)
    subst hnil
    rw [replaceAll_nil] at h
    exact hp (List.eq_nil_of_infix_nil h)
  | succ n ih =>
    intro s hs h
    match s with
    | [] =>
      rw [replaceAll_nil] at h
      exact hp (List.eq_nil_of_infix_nil h)
    | c :: s' =>
      by_cases hbr : p ≠ [] ∧ p <+: (c :: s')
      · rw [replaceAll_cons_pos p r c s' hbr.1 hbr.2] at h
        have h2 := infix_append_right_of_safe S.2.1 S.2.2.1 h
        have hlen : ((c :: s').drop p.length).length ≤ n := by
          have := List.length_pos.mpr hp
          simp only [List.length_drop, List.length_cons]
          simp only [List.length_cons] at hs
          omega
        exact ih _ hlen h2
      · rw [replaceAll_cons_neg p r c s' hbr] at h
        rcases List.infix_cons_iff.mp h with hpre | htail
        · have hpre' : p <+: replaceAll p r (c :: s') := by
            rw [replaceAll_cons_neg p r c s' hbr]; exact hpre
          have := prefix_transfer S.2.2.2.1 S.2.2.2.2 (c :: s') p (List.suffix_refl p) hp hpre'
          exact hbr ⟨hp, this⟩
        · have hlen : s'.length ≤ n := by
            simp only [List.length_cons] at hs; omega
          exact ih s' hlen htail

/-- If the token `q` does not occur in the input and the replacement value is
insertion-safe for `q`, then `q` does not occur in the output either
(substituting one token cannot materialise another). -/
theorem infix_absent_replaceAll {p r q : List Char} (hp : p ≠ []) (S : SafeIns q r) :
    ∀ s, ¬ q <:+: s → ¬ q <:+: replaceAll p r s := by
  suffices hfuel : ∀ n (s : List Char), s.length ≤ n → ¬ q <:+: s →
      ¬ q <:+: replaceAll p r s by
    exact fun s => hfuel s.length s le_rfl
  intro n
  induction n with
  | zero =>
    intro s hs habs h
    have hnil : s = [] := List.eq_nil_of_length_eq_zero (Nat.le_zero.mp hs)
    subst hnil
    rw [replaceAll_nil] at h
    exact habs h
  | succ n ih =>
    intro s hs habs h
    match s with
    | [] =>
      rw [replaceAll_nil] at h
      exact habs h
    | c :: s' =>
      by_cases hbr : p ≠ [] ∧ p <+: (c :: s')
      · rw [replaceAll_cons_pos p r c s' hbr.1 hbr.2] at h
        have h2 := infix_append_right_of_safe S.2.1 S.2.2.1 h
        have habs' : ¬ q <:+: (c :: s').drop p.length := fun hq =>
          habs (hq.trans (List.drop_suffix p.length (c :: s')).isInfix)
        have hlen : ((c :: s').drop p.length).length ≤ n := by
          have := List.length_pos.mpr hp
          simp only [List.length_drop, List.length_cons]
          simp only [List.length_cons] at hs
          omega
        exact ih _ hlen habs' h2
      · rw [replaceAll_cons_neg p r c s' hbr] at h
        rcases List.infix_cons_iff.mp h with hpre | htail
        · have hqne : q ≠ [] := fun hq => habs (hq ▸ List.nil_infix)
          have hpre' : q <+: replaceAll p r (c :: s') := by
            rw [replaceAll_cons_neg p r c s' hbr]; exact hpre
          have := prefix_transfer S.2.2.2.1 S.2.2.2.2 (c :: s') q (List.suffix_refl q) hqne hpre'
          exact habs this.isInfix
        · have habs' : ¬ q <:+: s' := fun hq => habs (List.infix_cons hq)
          have hlen : s'.length ≤ n := by
            simp only [List.length_cons] at hs; omega
          exact ih s' hlen habs' htail

/-- A previously substituted value `a` that is a prefix of the input stays a
prefix of the output when a later token `p` (insertion-safe with respect to
`a`) is replaced. -/
theorem prefix_preserved_replaceAll {p r a : List Char} (S : SafeIns p a) :
    ∀ s a', a' <:+ a → a' <+: s → a' <+: replaceAll p r s := by
  suffices hfuel : ∀ n (s : List Char), s.length ≤ n → ∀ a', a' <:+ a → a' <+: s →
      a' <+: replaceAll p r s by
    exact fun s => hfuel s.length s le_rfl
  intro n
  induction n with
  | zero =>
    intro s hs a' _ hpre
    have hnil : s = [] := List.eq_nil_of_length_eq_zero (Nat.le_zero.mp hs)
    subst hnil
    rw [replaceAll_nil]
    exact hpre
  | succ n ih =>
    intro s hs a' hsuf hpre
    match s with
    | [] => rw [replaceAll_nil]; exact hpre
    | c :: s' =>
      by_cases ha' : a' = []
      · subst ha'; exact List.nil_prefix
      by_cases hbr : p ≠ [] ∧ p <+: (c :: s')
      · -- the token cannot start inside (or around) the value occurrence
        rcases Nat.le_total p.length a'.length with hle | hle
        · have hpa : p <+: a' := List.prefix_of_prefix_length_le hbr.2 hpre hle
          exact absurd (hpa.isInfix.trans hsuf.isInfix) S.2.1
        · have hap : a' <+: p := List.prefix_of_prefix_length_le hpre hbr.2 hle
          exact absurd hsuf
            (S.2.2.1 a' ((List.mem_inits a' p).mpr hap) ha')
      · rw [replaceAll_cons_neg p r c s' hbr]
        cases a' with
        | nil => exact List.nil_prefix
        | cons b a'' =>
          obtain ⟨hbc, ha''⟩ := List.cons_prefix_cons.mp hpre
          subst hbc
          have hlen : s'.length ≤ n := by
            simp only [List.length_cons] at hs; omega
          exact List.cons_prefix_cons.mpr
            ⟨rfl, ih s' hlen a'' ((List.suffix_cons b a'').trans hsuf) ha''⟩

/-- A previously substituted value `a` occurring in the input still occurs in
the output when a later token `p` (insertion-safe with respect to `a`) is
replaced: the claim's "contains the substituted values verbatim". -/
theorem infix_preserved_replaceAll {p r a : List Char} (hp : p ≠ []) (S : SafeIns p a) :
    ∀ s, a <:+: s → a <:+: replaceAll p r s := by
  suffices hfuel : ∀ n (s : List Char), s.length ≤ n → a <:+: s →
      a <:+: replaceAll p r s by
    exact fun s => hfuel s.length s le_rfl
  intro n
  induction n with
  | zero =>
    intro s hs hin
    have hnil : s = [] := List.eq_nil_of_length_eq_zero (Nat.le_zero.mp hs)
    subst hnil
    rw [replaceAll_nil]
    exact hin
  | succ n ih =>
    intro s hs hin
    match s with
    | [] => rw [replaceAll_nil]; exact hin
    | c :: s' =>
      by_cases hbr : p ≠ [] ∧ p <+: (c :: s')
      · obtain ⟨u, v, huv⟩ := hin
        rw [replaceAll_cons_pos p r c s' hbr.1 hbr.2]
        rcases le_or_lt p.length u.length with hle | hlt
        · -- the occurrence lies beyond the replaced front match
          have hdropeq : (c :: s').drop p.length = u.drop p.length ++ (a ++ v) := by
            rw [← huv, List.append_assoc, List.drop_append_of_le_length hle]
          have hin' : a <:+: (c :: s').drop p.length := by
            rw [hdropeq]
            exact ⟨u.drop p.length, v, by rw [List.append_assoc]⟩
          have hlen : ((c :: s').drop p.length).length ≤ n := by
            have := List.length_pos.mpr hbr.1
            simp only [List.length_drop, List.length_cons]
            simp only [List.length_cons] at hs
            omega
          exact (ih _ hlen hin').trans (List.suffix_append r _).isInfix
        · -- the front match would overlap the occurrence: contradiction
          have hupre : u <+: c :: s' := ⟨a ++ v, by rw [← List.append_assoc, huv]⟩
          have hup : u <+: p := List.prefix_of_prefix_length_le hupre hbr.2 (Nat.le_of_lt hlt)
          obtain ⟨w, hw⟩ := hup
          have hwsuf : w <:+ p := ⟨u, hw⟩
          have hwne : w ≠ [] := by
            intro h0
            rw [h0, List.append_nil] at hw
            rw [hw] at hlt
            exact Nat.lt_irrefl _ hlt
          have hwpre : w <+: a ++ v := by
            have : u ++ w <+: u ++ (a ++ v) := by
              rw [hw, ← List.append_assoc, huv]; exact hbr.2
            exact (List.prefix_append_right_inj u).mp this
          rcases prefix_append_split hwpre with hwa | ⟨w', hw', _⟩
          · exact absurd hwa (S.2.2.2.1 w ((List.mem_tails w p).mpr hwsuf) hwne)
          · have hain : a <:+: p := ((show a <+: w from ⟨w', hw'.symm⟩).isInfix).trans hwsuf.isInfix
            exact absurd hain S.2.2.2.2
      · rw [replaceAll_cons_neg p r c s' hbr]
        rcases List.infix_cons_iff.mp hin with hpre | htail
        · have : a <+: replaceAll p r (c :: s') :=
            prefix_preserved_replaceAll S (c :: s') a (List.suffix_refl a) hpre
          rw [replaceAll_cons_neg p r c s' hbr] at this
          exact this.isInfix
        · have hlen : s'.length ≤ n := by
            simp only [List.length_cons] at hs; omega
          exact List.infix_cons (ih s' hlen htail)

/-- When the token occurs in the input, the replacement value occurs in the
output (the substituted value appears verbatim at the point of
substitution). -/
theorem inserted_infix_replaceAll {p r : List Char} (hp : p ≠ []) :
    ∀ s, p <:+: s → r <:+: replaceAll p r s := by
  suffices hfuel : ∀ n (s : List Char), s.length ≤ n → p <:+: s →
      r <:+: replaceAll p r s by
    exact fun s => hfuel s.length s le_rfl
  intro n
  induction n with
  | zero =>
    intro s hs hin
    have hnil : s = [] := List.eq_nil_of_length_eq_zero (Nat.le_zero.mp hs)
    subst hnil
    exact absurd (List.eq_nil_of_infix_nil hin) hp
  | succ n ih =>
    intro s hs hin
    match s with
    | [] => exact absurd (List.eq_nil_of_infix_nil hin) hp
    | c :: s' =>
      by_cases hbr : p ≠ [] ∧ p <+: (c :: s')
      · rw [replaceAll_cons_pos p r c s' hbr.1 hbr.2]
        exact (List.prefix_append r _).isInfix
      · rw [replaceAll_cons_neg p r c s' hbr]
        rcases List.infix_cons_iff.mp hin with hpre | htail
        · exact absurd ⟨hp, hpre⟩ hbr
        · have hlen : s'.length ≤ n := by
            simp only [List.length_cons] at hs; omega
          exact List.infix_cons (ih s' hlen htail)

/-! ### Version and changelog extraction

Embeds `extract_version` (regex `#define VERSION "v(\d+\.\d+\.\d+)"`) and
`extract_version_changelog` (regex
`\d{2}/\d{2}/\d{4} v(\d+\.\d+\.\d+)(.*?)\d{2}/\d{2}/\d{4}` with DOTALL),
both using `re.search` (leftmost match).  The model scans start positions
from the left; at each, the fixed-width pieces and the greedy `\d+` runs are
matched by maximal munch, and the lazy `(.*?)` by the earliest terminating
date stamp.  For the version pattern this is exactly `re`'s behaviour (each
`\d+` is followed by a non-digit literal, so giving back digits can never
rescue a failing match).  For the changelog pattern it agrees with `re`
whenever the character after the version's last digit run is a non-digit
(then the run's extent is forced); the C8 theorem's hypotheses require
exactly that of the body.  On inputs where the lazy terminator could start
inside the version's final digit run (e.g. `v1.2.134/56/7890`), `re` can
backtrack the final `\d+` and match where this model reports no match; no
theorem below concerns such inputs. -/

/-- Match `\d{2}/\d{2}/\d{4}` at the head; return the rest on success. -/
def parseDateAt : List Char → Option (List Char)
  | a :: b :: '/' :: c :: d :: '/' :: e :: f :: g :: h :: rest =>
    if a.isDigit && b.isDigit && c.isDigit && d.isDigit &&
       e.isDigit && f.isDigit && g.isDigit && h.isDigit then some rest else none
  | _ => none

/-- Match `(\d+\.\d+\.\d+)` at the head with greedy digit runs; return the
captured group and the rest. -/
def parseVersionAt (s : List Char) : Option (List Char × List Char) :=
  let a := s.takeWhile Char.isDigit
  let s1 := s.dropWhile Char.isDigit
  if a = [] then none else
  match s1 with
  | '.' :: s2 =>
    let b := s2.takeWhile Char.isDigit
    let s3 := s2.dropWhile Char.isDigit
    if b = [] then none else
    match s3 with
    | '.' :: s4 =>
      let c := s4.takeWhile Char.isDigit
      let s5 := s4.dropWhile Char.isDigit
      if c = [] then none else some (a ++ '.' :: b ++ '.' :: c, s5)
    | _ => none
  | _ => none

/-- Match `\d{2}/\d{2}/\d{4} v(\d+\.\d+\.\d+)` at the head. -/
def headerAt (s : List Char) : Option (List Char × List Char) :=
  match parseDateAt s with
  | none => none
  | some r1 =>
    match r1 with
    | ' ' :: 'v' :: r2 => parseVersionAt r2
    | _ => none

/-- Earliest position where a `\d{2}/\d{2}/\d{4}` stamp matches: the
leftmost-shortest extent of the lazy group `(.*?)`.  Returns the consumed
middle and the remainder starting at the stamp. -/
def findEarliestDate : List Char → Option (List Char × List Char)
  | [] => none
  | c :: s =>
    if (parseDateAt (c :: s)).isSome then some ([], c :: s)
    else
      match findEarliestDate s with
      | none => none
      | some (pre, rest) => some (c :: pre, rest)

/-- `re.search` of the changelog pattern: try each start position from the
left; a position matches when the header matches there and a terminating
date stamp exists afterwards. -/
def searchChangelog : List Char → Option (List Char × List Char)
  | [] => none
  | c :: s =>
    match headerAt (c :: s) with
    | some (v, rest) =>
      match findEarliestDate rest with
      | some (mid, _) => some (v, mid)
      | none => searchChangelog s
    | none => searchChangelog s

/-- A line consisting only of `[\s-]` characters, as removed by
`re.sub(r'(^[\s-]*$\n?)', '', ..., flags=re.MULTILINE)`. -/
def isBlankDashLine (l : List Char) : Bool := l.all (fun c => isPySpace c || c = '-')

/-- Reassemble the newline-separated pieces, dropping each blank-or-hyphen
line together with its trailing newline (the `\n?` of the pattern). -/
def joinKeptLines : List (List Char) → List Char
  | [] => []
  | [p] => if isBlankDashLine p then [] else p
  | p :: rest =>
    if isBlankDashLine p then joinKeptLines rest else p ++ '\n' :: joinKeptLines rest

def removeBlankDashLines (s : List Char) : List Char := joinKeptLines (splitOnChar '\n' s)

/-- `extract_version_changelog(filename)`: returns
`(match.group(1).strip(), re.sub(blank-line-pattern, '', match.group(2).strip()))`
or raises `ValueError("Change log extract failed")`. -/
def extract_version_changelog (content : List Char) : Except String (List Char × List Char) :=
  match searchChangelog content with
  | none => .error "Change log extract failed"
  | some (v, mid) => .ok (stripChars v, removeBlankDashLines (stripChars mid))

def defineLit : List Char := "#define VERSION \"v".data

/-- Match `#define VERSION "v(\d+\.\d+\.\d+)"` at the head. -/
def matchDefineAt (s : List Char) : Option (List Char) :=
  if defineLit.isPrefixOf s then
    match parseVersionAt (s.drop defineLit.length) with
    | some (v, '"' :: _) => some v
    | _ => none
  else none

def searchDefine : List Char → Option (List Char)
  | [] => none
  | c :: s =>
    match matchDefineAt (c :: s) with
    | some v => some v
    | none => searchDefine s

/-- `extract_version(filename)`: the captured version, or
`ValueError("Version not found")`. -/
def extract_version (content : List Char) : Except String (List Char) :=
  match searchDefine content with
  | none => .error "Version not found"
  | some v => .ok v

/-! ### Manifest parser

`extract_files_from_remove_section` parses the manifest as XML and reads the
`<remove>` element's text.  The XML layer is abstracted into the possible
observations: unparsable document (with the parser's own message), no
`<remove>` element, or a `<remove>` element whose text is `None` or a
string.  Every internal exception is caught and re-raised as
`ValueError(f"XML Parsing {xml_file}: {e}")`. -/

inductive ManifestXml where
  | malformed (msg : String)
  | noRemove
  | remove (text : Option String)

/-- The `AttributeError` message Python produces for `None.split(",")`,
which the function's blanket `except` clause wraps like any other error. -/
def noneSplitMsg : String := "'NoneType' object has no attribute 'split'"

def extract_files_from_remove_section (xml_file : String) (xml : ManifestXml) :
    Except String (List String) :=
  match xml with
  | .malformed m => .error ("XML Parsing " ++ xml_file ++ ": " ++ m)
  | .noRemove =>
    .error ("XML Parsing " ++ xml_file ++ ": " ++ "<remove> section not found in the XML.")
  | .remove none => .error ("XML Parsing " ++ xml_file ++ ": " ++ noneSplitMsg)
  | .remove (some t) =>
    let files := (splitOnChar ',' t.data).filterMap
      (fun f => if stripChars f ≠ [] then some (String.mk (stripChars f)) else none)
    if files ≠ [] then .ok files
    else
      .error ("XML Parsing " ++ xml_file ++ ": " ++
        "No valid files found in the <remove> section.")

/-! ### Package builder (`save_list_to_zip`)

File-system effects are modelled as an explicit event trace; `os.path.exists`
is a parameter.  The whole validation loop runs before any archive is
written, so on a validation error the trace is empty. -/

inductive FsEvent where
  | rmTree (path : String)
  | mkDirs (path : String)
  | writeZip (path : String) (entries : List String)
  | copyFile (src dst : String)
  | writeFile (path content : String)
  deriving DecidableEq

def allowedPath (script_folder f : String) : Bool :=
  pyStartsWith ("src/scripts/" ++ script_folder ++ "/") f || pyStartsWith "doc/scripts/" f

def gxsProtected (f : String) : Bool := pyStartsWith "src/scripts/GraXpertSuite/GXS" f

/-- The `for file in files_list` validation loop: `acc` is `local_files`,
`dels` records the paths for which a `Delete '...'` notice is printed. -/
def validateFiles (ex : String → Bool) (sf : String) :
    List String → List String → List String → Except String (List String × List String)
  | acc, dels, [] => .ok (acc, dels)
  | acc, dels, f :: rest =>
    if f = "" then validateFiles ex sf acc dels rest
    else if allowedPath sf f = false then .error ("Invalid path " ++ f)
    else if ex f = false ∧ gxsProtected f = false then validateFiles ex sf acc (dels ++ [f]) rest
    else if ex f = false ∧ gxsProtected f = true then .error ("File '" ++ f ++ "' not found.")
    else if f ∈ acc then .error ("Duplicate file '" ++ f ++ "'")
    else validateFiles ex sf (acc ++ [f]) dels rest

structure ZipInfo where
  zipFilePath : String
  entries : List String
  deletions : List String
  manualPath : String
  deriving DecidableEq

def manualZipName (output_directory : String) : String :=
  if basename output_directory = "graxpert" then "GraXpert-All-In-One.zip"
  else "GraXpert-Suite.zip"

def save_list_to_zip (ex : String → Bool) (files_list : List String)
    (script_folder output_directory datePrefix : String) :
    List FsEvent × Except String ZipInfo :=
  match validateFiles ex script_folder [] [] files_list with
  | .error e => ([], .error e)
  | .ok (locals, dels) =>
    let zipFileDate := datePrefix ++ "_" ++ script_folder ++ ".zip"
    let zipPath := joinPath output_directory zipFileDate
    let manualPath := joinPath output_directory (manualZipName output_directory)
    ([.writeZip zipPath locals, .copyFile zipPath manualPath],
     .ok ⟨zipPath, locals, dels, manualPath⟩)

/-! ### Descriptor generator (`replace_and_save`) -/

def tokZIP : List Char := "_ZIP_FILENAME_".data
def tokSHA1 : List Char := "_SHA1_".data
def tokDATE : List Char := "_DATE_".data
def tokCHLOG : List Char := "_CHANGELOG_".data

/-- The replacement value substituted for `_CHANGELOG_`:
`"Changelog v" + version + ":</p>\n\t\t\t<p>" + changelog.replace("\n", "</p>\n\t\t\t<p>")`. -/
def changelogHtml (version changelog : List Char) : List Char :=
  "Changelog v".data ++ version ++ ":</p>\n\t\t\t<p>".data ++
    replaceAll "\n".data "</p>\n\t\t\t<p>".data changelog

/-- The four successive `str.replace` calls of `replace_and_save`, in source
order: `_ZIP_FILENAME_`, `_SHA1_`, `_DATE_`, `_CHANGELOG_`. -/
def buildDescriptorContent (template zipBase sha1 date version changelog : List Char) :
    List Char :=
  replaceAll tokCHLOG (changelogHtml version changelog)
    (replaceAll tokDATE date
      (replaceAll tokSHA1 sha1
        (replaceAll tokZIP zipBase template)))

/-- `replace_and_save`: skips (no write) when the template or the archive is
absent, otherwise writes the substituted descriptor to
`<dest_directory>/updates.xri`.  The SHA-1 digest of the archive bytes is
abstracted as the string parameter `sha1hex`. -/
def replace_and_save (isfile : String → Bool) (source_path dest_directory zip_file_path : String)
    (template sha1hex dateTime version changelog : String) : List FsEvent :=
  if isfile source_path = false then []
  else if isfile zip_file_path = false then []
  else
    [.writeFile (joinPath dest_directory "updates.xri")
      (String.mk (buildDescriptorContent template.data (basename zip_file_path).data
        sha1hex.data dateTime.data version.data changelog.data))]

/-! ### Build orchestrator (`__main__`, one loop iteration) -/

structure BuildInputs where
  helperContent : List Char
  changelogContent : List Char
  manifest1 : ManifestXml
  manifest2 : ManifestXml
  template1 : String
  template2 : String
  outputDirExists : Bool
  ex : String → Bool
  isfile : String → Bool
  datePrefix : String
  dateTime : String
  sha1For : String → String

def outputRoot : String := "repository/update-beta"

/-- `updates_xml_file.replace("updates", "graxpert").replace(".xri", "")`
joined under the output root. -/
def destinationFor (name : String) : String :=
  joinPath outputRoot
    (String.mk (replaceAll ".xri".data []
      (replaceAll "updates".data "graxpert".data name.data)))

/-- One pass of the `for updates_xml_file in [...]` loop body. -/
def processManifest (I : BuildInputs) (name : String) (xml : ManifestXml) (tmpl : String)
    (version changelog : String) : List FsEvent × Option String :=
  match extract_files_from_remove_section name xml with
  | .error e => ([], some e)
  | .ok files =>
    if files = [] then ([.mkDirs (destinationFor name)], none)
    else
      match save_list_to_zip I.ex files "GraXpertSuite" (destinationFor name) I.datePrefix with
      | (evz, .error e) => (.mkDirs (destinationFor name) :: evz, some e)
      | (evz, .ok zi) =>
        (.mkDirs (destinationFor name) :: evz ++
          replace_and_save I.isfile name (destinationFor name) zi.zipFilePath tmpl
            (I.sha1For zi.zipFilePath) I.dateTime version changelog, none)

/-- One iteration of the orchestrator's `while (1)` loop, up to the
`input()` pause: the returned trace is every file-system effect performed,
and the second component is the message of the caught `ValueError`, if
any. -/
def runIteration (I : BuildInputs) : List FsEvent × Option String :=
  match extract_version I.helperContent with
  | .error e => ([], some e)
  | .ok v =>
    match extract_version_changelog I.changelogContent with
    | .error e => ([], some e)
    | .ok (cv, cl) =>
      if cv ≠ v then
        ([], some ("Wrong version (changelog " ++ String.mk cv ++ " / Helper.js " ++
          String.mk v ++ ")"))
      else
        match processManifest I "updates.xri" I.manifest1 I.template1
            (String.mk v) (String.mk cl) with
        | (e1, some err) =>
          ((if I.outputDirExists then [FsEvent.rmTree outputRoot] else []) ++ e1, some err)
        | (e1, none) =>
          ((if I.outputDirExists then [FsEvent.rmTree outputRoot] else []) ++ e1 ++
              (processManifest I "updates-suite.xri" I.manifest2 I.template2
                (String.mk v) (String.mk cl)).1,
            (processManifest I "updates-suite.xri" I.manifest2 I.template2
              (String.mk v) (String.mk cl)).2)

/-! ### Properties of the validation loop -/

/-- Entries accepted into `local_files`: non-empty and existing on disk. -/
def keepP (ex : String → Bool) (g : String) : Bool := g ≠ "" && ex g

/-- Entries that produce a `Delete '...'` notice: non-empty and missing. -/
def delP (ex : String → Bool) (g : String) : Bool := g ≠ "" && !ex g

/-- An entry that cannot make the loop raise: empty, or allowed and (when
missing) outside the protected `GXS` subtree. -/
def Benign (ex : String → Bool) (sf : String) (g : String) : Prop :=
  g ≠ "" → allowedPath sf g = true ∧ (ex g = false → gxsProtected g = false)

instance (ex : String → Bool) (sf g : String) : Decidable (Benign ex sf g) := by
  unfold Benign
  infer_instance

theorem validateFiles_nil (ex : String → Bool) (sf : String) (acc dels : List String) :
    validateFiles ex sf acc dels [] = .ok (acc, dels) := rfl

theorem validateFiles_cons (ex : String → Bool) (sf : String) (acc dels : List String)
    (f : String) (rest : List String) :
    validateFiles ex sf acc dels (f :: rest) =
      if f = "" then validateFiles ex sf acc dels rest
      else if allowedPath sf f = false then .error ("Invalid path " ++ f)
      else if ex f = false ∧ gxsProtected f = false then
        validateFiles ex sf acc (dels ++ [f]) rest
      else if ex f = false ∧ gxsProtected f = true then
        .error ("File '" ++ f ++ "' not found.")
      else if f ∈ acc then .error ("Duplicate file '" ++ f ++ "'")
      else validateFiles ex sf (acc ++ [f]) dels rest := rfl

/-- On a list of benign entries whose accepted part is duplicate-free, the
loop succeeds, accepting exactly the non-empty existing entries in order and
printing a deletion notice for exactly the non-empty missing ones. -/
theorem validateFiles_benign (ex : String → Bool) (sf : String) :
    ∀ (files acc dels : List String), (∀ g ∈ files, Benign ex sf g) →
      (acc ++ files.filter (keepP ex)).Nodup →
      validateFiles ex sf acc dels files =
        .ok (acc ++ files.filter (keepP ex), dels ++ files.filter (delP ex)) := by
  intro files
  induction files with
  | nil => intro acc dels _ _; simp [validateFiles_nil]
  | cons f rest ih =>
    intro acc dels hb hnd
    rw [validateFiles_cons]
    by_cases hf : f = ""
    · subst hf
      rw [if_pos rfl]
      have hk : ¬ keepP ex "" = true := by simp [keepP]
      have hd : ¬ delP ex "" = true := by simp [delP]
      rw [List.filter_cons_of_neg hk] at hnd ⊢
      rw [List.filter_cons_of_neg hd]
      exact ih acc dels (fun g hg => hb g (List.mem_cons_of_mem _ hg)) hnd
    · have hall := (hb f (List.mem_cons_self f rest) hf).1
      rw [if_neg hf, if_neg (by rw [hall]; simp)]
      by_cases hex : ex f = true
      · have hk : keepP ex f = true := by simp [keepP, hf, hex]
        rw [List.filter_cons_of_pos hk] at hnd ⊢
        have hd : ¬ delP ex f = true := by simp [delP, hex]
        rw [List.filter_cons_of_neg hd]
        rw [if_neg (by simp [hex]), if_neg (by simp [hex])]
        have hfacc : f ∉ acc := by
          intro hmem
          rcases List.nodup_append.mp hnd with ⟨_, _, hdisj⟩
          exact hdisj hmem (List.mem_cons_self f _)
        rw [if_neg hfacc]
        have heq : (acc ++ [f]) ++ rest.filter (keepP ex) =
            acc ++ f :: rest.filter (keepP ex) := by simp
        have hnd' : ((acc ++ [f]) ++ rest.filter (keepP ex)).Nodup := by
          rw [heq]; exact hnd
        rw [ih (acc ++ [f]) dels (fun g hg => hb g (List.mem_cons_of_mem _ hg)) hnd', heq]
      · have hexf : ex f = false := by
          cases hxf : ex f
          · rfl
          · exact absurd hxf hex
        have hgxs : gxsProtected f = false := (hb f (List.mem_cons_self f rest) hf).2 hexf
        rw [if_pos ⟨hexf, hgxs⟩]
        have hk : ¬ keepP ex f = true := by simp [keepP, hexf]
        have hd : delP ex f = true := by simp [delP, hf, hexf]
        rw [List.filter_cons_of_neg hk] at hnd ⊢
        rw [List.filter_cons_of_pos hd]
        have heq : (dels ++ [f]) ++ rest.filter (delP ex) =
            dels ++ f :: rest.filter (delP ex) := by simp
        rw [ih acc (dels ++ [f]) (fun g hg => hb g (List.mem_cons_of_mem _ hg)) hnd, heq]

/-- Processing a benign duplicate-free segment before the remainder of the
list just accumulates its accepted and deleted entries. -/
theorem validateFiles_append_benign (ex : String → Bool) (sf : String) :
    ∀ (pre l acc dels : List String), (∀ g ∈ pre, Benign ex sf g) →
      (acc ++ pre.filter (keepP ex)).Nodup →
      validateFiles ex sf acc dels (pre ++ l) =
        validateFiles ex sf (acc ++ pre.filter (keepP ex)) (dels ++ pre.filter (delP ex)) l := by
  intro pre
  induction pre with
  | nil => intro l acc dels _ _; simp
  | cons f rest ih =>
    intro l acc dels hb hnd
    rw [List.cons_append, validateFiles_cons]
    by_cases hf : f = ""
    · subst hf
      rw [if_pos rfl]
      have hk : ¬ keepP ex "" = true := by simp [keepP]
      have hd : ¬ delP ex "" = true := by simp [delP]
      rw [List.filter_cons_of_neg hk] at hnd ⊢
      rw [List.filter_cons_of_neg hd]
      exact ih l acc dels (fun g hg => hb g (List.mem_cons_of_mem _ hg)) hnd
    · have hall := (hb f (List.mem_cons_self f rest) hf).1
      rw [if_neg hf, if_neg (by rw [hall]; simp)]
      by_cases hex : ex f = true
      · have hk : keepP ex f = true := by simp [keepP, hf, hex]
        rw [List.filter_cons_of_pos hk] at hnd ⊢
        have hd : ¬ delP ex f = true := by simp [delP, hex]
        rw [List.filter_cons_of_neg hd]
        rw [if_neg (by simp [hex]), if_neg (by simp [hex])]
        have hfacc : f ∉ acc := by
          intro hmem
          rcases List.nodup_append.mp hnd with ⟨_, _, hdisj⟩
          exact hdisj hmem (List.mem_cons_self f _)
        rw [if_neg hfacc]
        have heq : (acc ++ [f]) ++ rest.filter (keepP ex) =
            acc ++ f :: rest.filter (keepP ex) := by simp
        have hnd' : ((acc ++ [f]) ++ rest.filter (keepP ex)).Nodup := by
          rw [heq]; exact hnd
        rw [ih l (acc ++ [f]) dels (fun g hg => hb g (List.mem_cons_of_mem _ hg)) hnd', heq]
      · have hexf : ex f = false := by
          cases hxf : ex f
          · rfl
          · exact absurd hxf hex
        have hgxs : gxsProtected f = false := (hb f (List.mem_cons_self f rest) hf).2 hexf
        rw [if_pos ⟨hexf, hgxs⟩]
        have hk : ¬ keepP ex f = true := by simp [keepP, hexf]
        have hd : delP ex f = true := by simp [delP, hf, hexf]
        rw [List.filter_cons_of_neg hk] at hnd ⊢
        rw [List.filter_cons_of_pos hd]
        have heq : (dels ++ [f]) ++ rest.filter (delP ex) =
            dels ++ f :: rest.filter (delP ex) := by simp
        rw [ih l acc (dels ++ [f]) (fun g hg => hb g (List.mem_cons_of_mem _ hg)) hnd, heq]

/-- If the loop succeeds, every non-empty entry satisfied the path-prefix
rule. -/
theorem validateFiles_ok_allowed (ex : String → Bool) (sf : String) :
    ∀ (files acc dels : List String) (res : List String × List String),
      validateFiles ex sf acc dels files = .ok res →
      ∀ g ∈ files, g ≠ "" → allowedPath sf g = true := by
  intro files
  induction files with
  | nil => intro acc dels res _ g hg; exact absurd hg (List.not_mem_nil g)
  | cons f rest ih =>
    intro acc dels res hok g hg hgne
    rw [validateFiles_cons] at hok
    rcases List.mem_cons.mp hg with hgf | hgrest
    · subst hgf
      by_cases hf : g = ""
      · exact absurd hf hgne
      · rw [if_neg hf] at hok
        by_cases hall : allowedPath sf g = false
        · rw [if_pos hall] at hok; exact absurd hok (by simp)
        · simpa using hall
    · by_cases hf : f = ""
      · rw [if_pos hf] at hok
        exact ih acc dels res hok g hgrest hgne
      · rw [if_neg hf] at hok
        by_cases hall : allowedPath sf f = false
        · rw [if_pos hall] at hok; exact absurd hok (by simp)
        · rw [if_neg hall] at hok
          by_cases h3 : ex f = false ∧ gxsProtected f = false
          · rw [if_pos h3] at hok
            exact ih acc (dels ++ [f]) res hok g hgrest hgne
          · rw [if_neg h3] at hok
            by_cases h4 : ex f = false ∧ gxsProtected f = true
            · rw [if_pos h4] at hok; exact absurd hok (by simp)
            · rw [if_neg h4] at hok
              by_cases h5 : f ∈ acc
              · rw [if_pos h5] at hok; exact absurd hok (by simp)
              · rw [if_neg h5] at hok
                exact ih (acc ++ [f]) dels res hok g hgrest hgne

/-- If the loop succeeds starting from a duplicate-free `local_files`, the
accepted entries of the input (non-empty and existing) are duplicate-free
together with it. -/
theorem validateFiles_ok_nodup (ex : String → Bool) (sf : String) :
    ∀ (files acc dels : List String) (res : List String × List String),
      acc.Nodup → validateFiles ex sf acc dels files = .ok res →
      (acc ++ files.filter (keepP ex)).Nodup := by
  intro files
  induction files with
  | nil => intro acc dels res hacc _; simpa using hacc
  | cons f rest ih =>
    intro acc dels res hacc hok
    rw [validateFiles_cons] at hok
    by_cases hf : f = ""
    · rw [if_pos hf] at hok
      rw [List.filter_cons_of_neg (by simp [keepP, hf])]
      exact ih acc dels res hacc hok
    · rw [if_neg hf] at hok
      by_cases hall : allowedPath sf f = false
      · rw [if_pos hall] at hok; exact absurd hok (by simp)
      · rw [if_neg hall] at hok
        by_cases h3 : ex f = false ∧ gxsProtected f = false
        · rw [if_pos h3] at hok
          rw [List.filter_cons_of_neg (by simp [keepP, h3.1])]
          exact ih acc (dels ++ [f]) res hacc hok
        · rw [if_neg h3] at hok
          by_cases h4 : ex f = false ∧ gxsProtected f = true
          · rw [if_pos h4] at hok; exact absurd hok (by simp)
          · rw [if_neg h4] at hok
            by_cases h5 : f ∈ acc
            · rw [if_pos h5] at hok; exact absurd hok (by simp)
            · rw [if_neg h5] at hok
              have hex : ex f = true := by
                by_cases hx : ex f = true
                · exact hx
                · have hxf : ex f = false := by
                    cases hxe : ex f
                    · rfl
                    · exact absurd hxe hx
                  cases hgx : gxsProtected f
                  · exact absurd ⟨hxf, hgx⟩ h3
                  · exact absurd ⟨hxf, hgx⟩ h4
              rw [List.filter_cons_of_pos (show keepP ex f = true by simp [keepP, hf, hex])]
              have hacc' : (acc ++ [f]).Nodup := by
                simp [List.nodup_append, hacc, h5]
              have hres := ih (acc ++ [f]) dels res hacc' hok
              have heq : (acc ++ [f]) ++ rest.filter (keepP ex) =
                  acc ++ f :: rest.filter (keepP ex) := by simp
              rw [heq] at hres
              exact hres

theorem save_list_to_zip_of_error (ex : String → Bool) (files : List String)
    (sf od dp e : String) (h : validateFiles ex sf [] [] files = .error e) :
    save_list_to_zip ex files sf od dp = ([], .error e) := by
  simp [save_list_to_zip, h]

theorem save_list_to_zip_of_ok (ex : String → Bool) (files : List String)
    (sf od dp : String) (locals dels : List String)
    (h : validateFiles ex sf [] [] files = .ok (locals, dels)) :
    save_list_to_zip ex files sf od dp =
      ([.writeZip (joinPath od (dp ++ "_" ++ sf ++ ".zip")) locals,
        .copyFile (joinPath od (dp ++ "_" ++ sf ++ ".zip")) (joinPath od (manualZipName od))],
       .ok ⟨joinPath od (dp ++ "_" ++ sf ++ ".zip"), locals, dels,
         joinPath od (manualZipName od)⟩) := by
  simp [save_list_to_zip, h]

/-- A path satisfying the prefix rule is non-empty. -/
theorem allowedPath_ne_empty (sf f : String) (h : allowedPath sf f = true) : f ≠ "" := by
  intro hf
  subst hf
  rcases Bool.or_eq_true_iff.mp (by simpa [allowedPath] using h) with h1 | h2
  · have : ("src/scripts/" ++ sf ++ "/").data.isPrefixOf [] = true := by
      simpa [pyStartsWith] using h1
    simp [String.data_append] at this
  · simp [pyStartsWith] at h2

/-- C4: a listed allowed-prefix path that is missing from disk and not under
`src/scripts/GraXpertSuite/GXS` is excluded from the archive with a deletion
notice and without failing the build, whereas a missing path under that
protected prefix makes the builder fail with the `File ... not found.`
error. -/
theorem C4_missing_file_handling (ex : String → Bool) (sf od dp : String) :
    (∀ (files : List String) (f : String),
      (∀ g ∈ files, Benign ex sf g) → (files.filter (keepP ex)).Nodup →
      f ∈ files → allowedPath sf f = true → ex f = false → gxsProtected f = false →
      ∃ zi : ZipInfo, (save_list_to_zip ex files sf od dp).2 = .ok zi ∧
        f ∈ zi.deletions ∧ f ∉ zi.entries)
    ∧
    (∀ (pre post : List String) (f : String),
      (∀ g ∈ pre, Benign ex sf g) → (pre.filter (keepP ex)).Nodup →
      allowedPath sf f = true → ex f = false → gxsProtected f = true →
      save_list_to_zip ex (pre ++ f :: post) sf od dp =
        ([], .error ("File '" ++ f ++ "' not found."))) := by
  constructor
  · intro files f hb hnd hmem hall hex hgxs
    have hv := validateFiles_benign ex sf files [] [] hb (by simpa using hnd)
    simp only [List.nil_append] at hv
    refine ⟨⟨joinPath od (dp ++ "_" ++ sf ++ ".zip"), files.filter (keepP ex),
      files.filter (delP ex), joinPath od (manualZipName od)⟩, ?_, ?_, ?_⟩
    · rw [save_list_to_zip_of_ok ex files sf od dp _ _ hv]
    · exact List.mem_filter.mpr ⟨hmem, by
        simp [delP, hex, allowedPath_ne_empty sf f hall]⟩
    · intro hmemk
      have := (List.mem_filter.mp hmemk).2
      simp [keepP, hex] at this
  · intro pre post f hb hnd hall hex hgxs
    have hfne : f ≠ "" := allowedPath_ne_empty sf f hall
    have hv : validateFiles ex sf [] [] (pre ++ f :: post) =
        .error ("File '" ++ f ++ "' not found.") := by
      rw [validateFiles_append_benign ex sf pre (f :: post) [] [] hb (by simpa using hnd)]
      rw [validateFiles_cons]
      rw [if_neg hfne, if_neg (by rw [hall]; simp)]
      rw [if_neg (fun hc => by rw [hgxs] at hc; simp at hc)]
      rw [if_pos ⟨hex, hgxs⟩]
    exact save_list_to_zip_of_error ex (pre ++ f :: post) sf od dp _ hv

/-- C6: on a valid file list whose files are all present on disk, the builder
produces the automatic-install archive containing exactly the accepted paths
in list order, plus a manual-install archive created as a byte copy of the
automatic one, named `GraXpert-All-In-One.zip` exactly when the destination
folder's basename is `graxpert` and `GraXpert-Suite.zip` otherwise. -/
theorem C6_valid_list_archives (ex : String → Bool) (files : List String)
    (sf od dp : String)
    (h1 : ∀ f ∈ files, f ≠ "" → allowedPath sf f = true ∧ ex f = true)
    (h2 : (files.filter (fun g => g ≠ "")).Nodup) :
    save_list_to_zip ex files sf od dp =
      ([.writeZip (joinPath od (dp ++ "_" ++ sf ++ ".zip"))
          (files.filter (fun g => g ≠ "")),
        .copyFile (joinPath od (dp ++ "_" ++ sf ++ ".zip"))
          (joinPath od (if basename od = "graxpert" then "GraXpert-All-In-One.zip"
            else "GraXpert-Suite.zip"))],
       .ok ⟨joinPath od (dp ++ "_" ++ sf ++ ".zip"), files.filter (fun g => g ≠ ""),
         [], joinPath od (if basename od = "graxpert" then "GraXpert-All-In-One.zip"
           else "GraXpert-Suite.zip")⟩) := by
  have hfc : files.filter (keepP ex) = files.filter (fun g => decide (g ≠ "")) :=
    List.filter_congr (fun g hg => by
      by_cases hge : g = ""
      · simp [keepP, hge]
      · simp [keepP, hge, (h1 g hg hge).2])
  have hfd : files.filter (delP ex) = [] := List.filter_eq_nil_iff.mpr (fun g hg => by
    by_cases hge : g = ""
    · simp [delP, hge]
    · simp [delP, hge, (h1 g hg hge).2])
  have hb : ∀ g ∈ files, Benign ex sf g := fun g hg hge =>
    ⟨(h1 g hg hge).1, fun hfa => absurd (h1 g hg hge).2 (by simp [hfa])⟩
  have hv := validateFiles_benign ex sf files [] [] hb (by rw [hfc]; simpa using h2)
  simp only [List.nil_append] at hv
  rw [hfc, hfd] at hv
  rw [save_list_to_zip_of_ok ex files sf od dp _ _ hv]
  simp [manualZipName]

/-- C7: a non-empty entry violating the path-prefix rule makes the builder
fail (with the `Invalid path` error when it is the first offending entry), a
path accepted into the valid-file list that appears again makes it fail
(with the `Duplicate file` error), and in every validation failure no
archive event is emitted. -/
theorem C7_invalid_path_and_duplicates (ex : String → Bool) (sf od dp : String) :
    (∀ (files : List String) (f : String), f ∈ files → f ≠ "" → allowedPath sf f = false →
      ∃ e, save_list_to_zip ex files sf od dp = ([], .error e))
    ∧
    (∀ (files : List String) (f : String), f ∈ files → keepP ex f = true →
      2 ≤ files.count f →
      ∃ e, save_list_to_zip ex files sf od dp = ([], .error e))
    ∧
    (∀ (pre post : List String) (f : String),
      (∀ g ∈ pre, Benign ex sf g) → (pre.filter (keepP ex)).Nodup →
      f ≠ "" → allowedPath sf f = false →
      save_list_to_zip ex (pre ++ f :: post) sf od dp =
        ([], .error ("Invalid path " ++ f)))
    ∧
    (∀ (pre post : List String) (f : String),
      (∀ g ∈ pre, Benign ex sf g) → (pre.filter (keepP ex)).Nodup →
      f ∈ pre.filter (keepP ex) → ex f = true → allowedPath sf f = true →
      save_list_to_zip ex (pre ++ f :: post) sf od dp =
        ([], .error ("Duplicate file '" ++ f ++ "'"))) := by
  refine ⟨?_, ?_, ?_, ?_⟩
  · intro files f hmem hfne hnall
    cases hv : validateFiles ex sf [] [] files with
    | error e => exact ⟨e, save_list_to_zip_of_error ex files sf od dp e hv⟩
    | ok res =>
      have := validateFiles_ok_allowed ex sf files [] [] res hv f hmem hfne
      rw [this] at hnall
      exact absurd hnall (by simp)
  · intro files f hmem hkeep hcount
    cases hv : validateFiles ex sf [] [] files with
    | error e => exact ⟨e, save_list_to_zip_of_error ex files sf od dp e hv⟩
    | ok res =>
      have hnd := validateFiles_ok_nodup ex sf files [] [] res List.nodup_nil hv
      simp only [List.nil_append] at hnd
      have hle := List.nodup_iff_count_le_one.mp hnd f
      rw [List.count_filter hkeep] at hle
      omega
  · intro pre post f hb hnd hfne hnall
    have hv : validateFiles ex sf [] [] (pre ++ f :: post) =
        .error ("Invalid path " ++ f) := by
      rw [validateFiles_append_benign ex sf pre (f :: post) [] [] hb (by simpa using hnd)]
      rw [validateFiles_cons, if_neg hfne, if_pos hnall]
    exact save_list_to_zip_of_error ex (pre ++ f :: post) sf od dp _ hv
  · intro pre post f hb hnd hmem hex hall
    have hfne : f ≠ "" := allowedPath_ne_empty sf f hall
    have hv : validateFiles ex sf [] [] (pre ++ f :: post) =
        .error ("Duplicate file '" ++ f ++ "'") := by
      rw [validateFiles_append_benign ex sf pre (f :: post) [] [] hb (by simpa using hnd)]
      rw [validateFiles_cons, if_neg hfne, if_neg (by rw [hall]; simp)]
      rw [if_neg (fun hc => by rw [hex] at hc; simp at hc)]
      rw [if_neg (fun hc => by rw [hex] at hc; simp at hc)]
      rw [if_pos (by simpa using hmem)]
    exact save_list_to_zip_of_error ex (pre ++ f :: post) sf od dp _ hv

/-- C9: duplicate detection applies only to accepted (existing) files — the
same missing, unprotected, allowed path listed twice yields a successful
build with a deletion notice per occurrence and no `Duplicate file` error. -/
theorem C9_duplicate_missing_path (ex : String → Bool) (files : List String) (f : String)
    (sf od dp : String)
    (hb : ∀ g ∈ files, Benign ex sf g) (hnd : (files.filter (keepP ex)).Nodup)
    (hall : allowedPath sf f = true) (hex : ex f = false) (hgxs : gxsProtected f = false)
    (hcount : 2 ≤ files.count f) :
    ∃ zi : ZipInfo, (save_list_to_zip ex files sf od dp).2 = .ok zi ∧
      2 ≤ zi.deletions.count f := by
  have hv := validateFiles_benign ex sf files [] [] hb (by simpa using hnd)
  simp only [List.nil_append] at hv
  refine ⟨⟨joinPath od (dp ++ "_" ++ sf ++ ".zip"), files.filter (keepP ex),
    files.filter (delP ex), joinPath od (manualZipName od)⟩, ?_, ?_⟩
  · rw [save_list_to_zip_of_ok ex files sf od dp _ _ hv]
  · have hdel : delP ex f = true := by
      simp [delP, hex, allowedPath_ne_empty sf f hall]
    rw [List.count_filter hdel]
    exact hcount

/-! ### Manifest parser claims -/

theorem stringMk_eq_empty_iff (l : List Char) : String.mk l = "" ↔ l = [] := by
  constructor
  · intro h
    have h2 := congrArg String.data h
    simpa using h2
  · intro h
    rw [h]

/-- The comprehension `[f.strip() for f in t.split(",") if f.strip()]` equals
mapping `strip` over the split and keeping the non-empty results. -/
theorem filterMap_strip_eq (L : List (List Char)) :
    L.filterMap
        (fun f => if stripChars f ≠ [] then some (String.mk (stripChars f)) else none) =
      (L.map (fun f => String.mk (stripChars f))).filter (fun g => g ≠ "") := by
  induction L with
  | nil => rfl
  | cons f rest ih =>
    rw [List.filterMap_cons, List.map_cons]
    by_cases hf : stripChars f = []
    · have hcond : (if stripChars f ≠ [] then some (String.mk (stripChars f)) else none)
          = none := by simp [hf]
      rw [hcond, List.filter_cons_of_neg (by simp [stringMk_eq_empty_iff, hf])]
      exact ih
    · have hcond : (if stripChars f ≠ [] then some (String.mk (stripChars f)) else none)
          = some (String.mk (stripChars f)) := by simp [hf]
      rw [hcond, List.filter_cons_of_pos (by simp [stringMk_eq_empty_iff, hf])]
      rw [ih]

/-- Unfolding of the parser on a `<remove>` element with text. -/
theorem extract_files_remove_some (fname t : String) :
    extract_files_from_remove_section fname (.remove (some t)) =
      (if ((splitOnChar ',' t.data).filterMap
            (fun f => if stripChars f ≠ [] then some (String.mk (stripChars f)) else none)) ≠ []
       then .ok ((splitOnChar ',' t.data).filterMap
            (fun f => if stripChars f ≠ [] then some (String.mk (stripChars f)) else none))
       else .error ("XML Parsing " ++ fname ++ ": " ++
         "No valid files found in the <remove> section.")) := rfl

/-- C5: the manifest parser returns the comma-separated `<remove>` entries
trimmed, with empty entries dropped and order preserved (witnessed by the
spec's example), and fails with a wrapped error naming the manifest file
when the XML is unparsable, the `<remove>` element is missing, or the list
is empty after filtering — so a successfully returned list is non-empty. -/
theorem C5_manifest_extraction :
    (extract_files_from_remove_section "manifest.xml"
        (.remove (some "a.js, b.js, ,  c.js")) = .ok ["a.js", "b.js", "c.js"])
    ∧
    (∀ (fname t : String) (l : List String),
      extract_files_from_remove_section fname (.remove (some t)) = .ok l →
      l = ((splitOnChar ',' t.data).map (fun f => String.mk (stripChars f))).filter
            (fun g => g ≠ "") ∧ l ≠ [])
    ∧
    (∀ fname m, extract_files_from_remove_section fname (.malformed m) =
      .error ("XML Parsing " ++ fname ++ ": " ++ m))
    ∧
    (∀ fname, extract_files_from_remove_section fname .noRemove =
      .error ("XML Parsing " ++ fname ++ ": " ++ "<remove> section not found in the XML."))
    ∧
    (∀ (fname t : String),
      ((splitOnChar ',' t.data).map (fun f => String.mk (stripChars f))).filter
          (fun g => g ≠ "") = [] →
      extract_files_from_remove_section fname (.remove (some t)) =
        .error ("XML Parsing " ++ fname ++ ": " ++
          "No valid files found in the <remove> section."))
    ∧
    (∀ (fname : String) (xml : ManifestXml) (l : List String),
      extract_files_from_remove_section fname xml = .ok l → l ≠ []) := by
  refine ⟨by rfl, ?_, fun fname m => rfl, fun fname => rfl, ?_, ?_⟩
  · intro fname t l hok
    rw [extract_files_remove_some, filterMap_strip_eq] at hok
    by_cases hne : ((splitOnChar ',' t.data).map (fun f => String.mk (stripChars f))).filter
        (fun g => g ≠ "") ≠ []
    · rw [if_pos hne] at hok
      cases hok
      exact ⟨rfl, hne⟩
    · rw [if_neg hne] at hok
      exact absurd hok (by simp)
  · intro fname t hnil
    rw [extract_files_remove_some, filterMap_strip_eq, if_neg (by simpa using hnil)]
  · intro fname xml l hok
    cases xml with
    | malformed m => exact absurd hok (by simp [extract_files_from_remove_section])
    | noRemove => exact absurd hok (by simp [extract_files_from_remove_section])
    | remove t =>
      cases t with
      | none => exact absurd hok (by simp [extract_files_from_remove_section])
      | some t =>
        rw [extract_files_remove_some] at hok
        by_cases hne : (splitOnChar ',' t.data).filterMap
            (fun f => if stripChars f ≠ [] then some (String.mk (stripChars f))
              else none) ≠ []
        · rw [if_pos hne] at hok
          cases hok
          exact hne
        · rw [if_neg hne] at hok
          exact absurd hok (by simp)

/-- C10: a `<remove>` element with no text at all still produces the single
wrapped error kind with the manifest filename prefix (Python's
`AttributeError` on `None.split` is caught by the blanket handler), and in
general every outcome of the parser is either a list or an error message
prefixed with `XML Parsing <file>: `. -/
theorem C10_none_text_wrapped :
    (∀ fname, extract_files_from_remove_section fname (.remove none) =
      .error ("XML Parsing " ++ fname ++ ": " ++ noneSplitMsg))
    ∧
    (∀ (fname : String) (xml : ManifestXml),
      (∃ l, extract_files_from_remove_section fname xml = .ok l) ∨
      (∃ m, extract_files_from_remove_section fname xml =
        .error ("XML Parsing " ++ fname ++ ": " ++ m))) := by
  refine ⟨fun fname => rfl, ?_⟩
  intro fname xml
  cases xml with
  | malformed m => exact Or.inr ⟨m, rfl⟩
  | noRemove => exact Or.inr ⟨"<remove> section not found in the XML.", rfl⟩
  | remove t =>
    cases t with
    | none => exact Or.inr ⟨noneSplitMsg, rfl⟩
    | some t =>
      rw [extract_files_remove_some]
      by_cases hne : (splitOnChar ',' t.data).filterMap
          (fun f => if stripChars f ≠ [] then some (String.mk (stripChars f))
            else none) ≠ []
      · exact Or.inl ⟨_, by rw [if_pos hne]⟩
      · exact Or.inr ⟨"No valid files found in the <remove> section.", by rw [if_neg hne]⟩

/-! ### Orchestrator claims -/

/-- C3: when the changelog version differs from the source version, the
iteration stops with the version-mismatch message before performing any
file-system effect: the event trace is empty (nothing created, deleted or
modified, no archive written). -/
theorem C3_version_mismatch (I : BuildInputs) (v cv cl : List Char)
    (hv : extract_version I.helperContent = .ok v)
    (hc : extract_version_changelog I.changelogContent = .ok (cv, cl))
    (hne : cv ≠ v) :
    runIteration I = ([], some ("Wrong version (changelog " ++ String.mk cv ++
      " / Helper.js " ++ String.mk v ++ ")")) := by
  unfold runIteration
  rw [hv, hc]
  simp [hne]

/-- A file-system event is "a manual-archive copy or not a copy at all". -/
def IsManualCopy (e : FsEvent) : Prop :=
  ∀ s d, e = FsEvent.copyFile s d →
    ∃ dir, d = joinPath dir "GraXpert-All-In-One.zip" ∨ d = joinPath dir "GraXpert-Suite.zip"

theorem save_list_to_zip_copies (ex : String → Bool) (files : List String)
    (sf od dp : String) :
    ∀ e ∈ (save_list_to_zip ex files sf od dp).1, IsManualCopy e := by
  intro e he
  cases hv : validateFiles ex sf [] [] files with
  | error er =>
    rw [save_list_to_zip_of_error ex files sf od dp er hv] at he
    exact absurd he (List.not_mem_nil e)
  | ok res =>
    obtain ⟨locals, dels⟩ := res
    rw [save_list_to_zip_of_ok ex files sf od dp locals dels hv] at he
    rcases List.mem_cons.mp he with hz | hrest
    · subst hz
      intro s d heq
      exact absurd heq (by simp)
    · rcases List.mem_cons.mp hrest with hcopy | hnil
      · subst hcopy
        intro s d heq
        injection heq with h1 h2
        subst h2
        refine ⟨od, ?_⟩
        unfold manualZipName
        by_cases hb : basename od = "graxpert"
        · rw [if_pos hb]
          exact Or.inl rfl
        · rw [if_neg hb]
          exact Or.inr rfl
      · exact absurd hnil (List.not_mem_nil e)

theorem replace_and_save_copies (isfile : String → Bool)
    (sp dd zp tmpl sha dt ver cl : String) :
    ∀ e ∈ replace_and_save isfile sp dd zp tmpl sha dt ver cl, IsManualCopy e := by
  intro e he
  unfold replace_and_save at he
  by_cases h1 : isfile sp = false
  · rw [if_pos h1] at he
    exact absurd he (List.not_mem_nil e)
  · rw [if_neg h1] at he
    by_cases h2 : isfile zp = false
    · rw [if_pos h2] at he
      exact absurd he (List.not_mem_nil e)
    · rw [if_neg h2] at he
      rcases List.mem_cons.mp he with hw | hnil
      · subst hw
        intro s d heq
        exact absurd heq (by simp)
      · exact absurd hnil (List.not_mem_nil e)

theorem processManifest_copies (I : BuildInputs) (name : String) (xml : ManifestXml)
    (tmpl ver cl : String) :
    ∀ e ∈ (processManifest I name xml tmpl ver cl).1, IsManualCopy e := by
  intro e he
  unfold processManifest at he
  split at he
  · exact absurd he (List.not_mem_nil e)
  · rename_i files _
    split at he
    · rcases List.mem_cons.mp he with hm | hnil
      · subst hm
        intro s d heq
        exact absurd heq (by simp)
      · exact absurd hnil (List.not_mem_nil e)
    · split at he
      · rename_i evz er heqs
        rcases List.mem_cons.mp he with hm | hz
        · subst hm
          intro s d heq
          exact absurd heq (by simp)
        · have hcopz := save_list_to_zip_copies I.ex files "GraXpertSuite"
            (destinationFor name) I.datePrefix
          rw [heqs] at hcopz
          exact hcopz e hz
      · rename_i evz zi heqs
        rcases List.mem_cons.mp he with hm | hz
        · subst hm
          intro s d heq
          exact absurd heq (by simp)
        · rcases List.mem_append.mp hz with hz1 | hz2
          · have hcopz := save_list_to_zip_copies I.ex files "GraXpertSuite"
              (destinationFor name) I.datePrefix
            rw [heqs] at hcopz
            exact hcopz e hz1
          · exact replace_and_save_copies I.isfile name (destinationFor name) zi.zipFilePath
              tmpl (I.sha1For zi.zipFilePath) I.dateTime ver cl e hz2

/-- C1 (amended): the Orchestrator performs no copy of any `index.html`
asset — every `shutil.copy` it issues targets a manual-install archive name
(`GraXpert-All-In-One.zip` or `GraXpert-Suite.zip`); no per-package or root
`index.html` copy ever appears in the trace. -/
theorem C1_no_index_copy (I : BuildInputs) :
    ∀ e ∈ (runIteration I).1, IsManualCopy e := by
  intro e he
  have hev0 : ∀ x ∈ (if I.outputDirExists then [FsEvent.rmTree outputRoot] else []),
      IsManualCopy x := by
    intro x hx
    by_cases hod : I.outputDirExists
    · rw [if_pos hod] at hx
      rcases List.mem_cons.mp hx with hm | hnil
      · subst hm
        intro s d heq
        exact absurd heq (by simp)
      · exact absurd hnil (List.not_mem_nil x)
    · rw [if_neg hod] at hx
      exact absurd hx (List.not_mem_nil x)
  unfold runIteration at he
  split at he
  · exact absurd he (List.not_mem_nil e)
  · rename_i v _
    split at he
    · exact absurd he (List.not_mem_nil e)
    · rename_i cv cl _
      split at he
      · exact absurd he (List.not_mem_nil e)
      · split at he
        · rename_i e1 err heq1
          have hcop1 := processManifest_copies I "updates.xri" I.manifest1 I.template1
            (String.mk v) (String.mk cl)
          rw [heq1] at hcop1
          rcases List.mem_append.mp he with h0 | hm1
          · exact hev0 e h0
          · exact hcop1 e hm1
        · rename_i e1 heq1
          have hcop1 := processManifest_copies I "updates.xri" I.manifest1 I.template1
            (String.mk v) (String.mk cl)
          rw [heq1] at hcop1
          have hcop2 := processManifest_copies I "updates-suite.xri" I.manifest2 I.template2
            (String.mk v) (String.mk cl)
          rcases List.mem_append.mp he with h01 | hm2
          · rcases List.mem_append.mp h01 with h0 | hm1
            · exact hev0 e h0
            · exact hcop1 e hm1
          · exact hcop2 e hm2

/-- Concrete full-build inputs: consistent version and changelog, two valid
manifests, every listed file present. -/
def C1ex : BuildInputs :=
  ⟨"#define VERSION \"v1.0.0\"".data,
   "01/01/2024 v1.0.0\nfix\n02/02/2024".data,
   .remove (some "src/scripts/GraXpertSuite/a.js"),
   .remove (some "doc/scripts/b.pdf"),
   "_ZIP_FILENAME_ _SHA1_ _DATE_ _CHANGELOG_",
   "_ZIP_FILENAME_",
   true,
   fun _ => true,
   fun _ => true,
   "20240101",
   "20240101000000",
   fun _ => "abc"⟩

/-- Boolean substring test. -/
def containsSub (p : List Char) : List Char → Bool
  | [] => p.isEmpty
  | c :: s => p.isPrefixOf (c :: s) || containsSub p s

/-- A trace event neither reads nor writes a path mentioning `index.html`
when copying. -/
def noIndexCopy (e : FsEvent) : Bool :=
  match e with
  | .copyFile s d => !(containsSub "index.html".data s.data) &&
      !(containsSub "index.html".data d.data)
  | _ => true

/-- C1 (counterexample): a successful full-build run that processes both
manifests emits no copy of `index.html` at all — neither into the
per-package subdirectories nor into the output root — contradicting the
claimed copies. -/
theorem C1_counterexample :
    (runIteration C1ex).2 = none ∧
    FsEvent.mkDirs "repository/update-beta/graxpert" ∈ (runIteration C1ex).1 ∧
    FsEvent.mkDirs "repository/update-beta/graxpert-suite" ∈ (runIteration C1ex).1 ∧
    (runIteration C1ex).1.all noIndexCopy = true := by
  refine ⟨by rfl, by decide, by decide, by rfl⟩

theorem C1_no_index_copy_witness :
    FsEvent.copyFile
        (joinPath "repository/update-beta/graxpert" "20240101_GraXpertSuite.zip")
        (joinPath "repository/update-beta/graxpert" "GraXpert-All-In-One.zip")
      ∈ (runIteration C1ex).1 ∧
    IsManualCopy (FsEvent.copyFile
        (joinPath "repository/update-beta/graxpert" "20240101_GraXpertSuite.zip")
        (joinPath "repository/update-beta/graxpert" "GraXpert-All-In-One.zip")) :=
  ⟨by decide, C1_no_index_copy C1ex _ (by decide)⟩

/-- Inputs identical to `C1ex` except that the changelog's version `1.0.1`
disagrees with the source version `1.0.0`. -/
def C3ex : BuildInputs :=
  ⟨"#define VERSION \"v1.0.0\"".data,
   "01/01/2024 v1.0.1\nfix\n02/02/2024".data,
   .remove (some "src/scripts/GraXpertSuite/a.js"),
   .remove (some "doc/scripts/b.pdf"),
   "_ZIP_FILENAME_ _SHA1_ _DATE_ _CHANGELOG_",
   "_ZIP_FILENAME_",
   true,
   fun _ => true,
   fun _ => true,
   "20240101",
   "20240101000000",
   fun _ => "abc"⟩

theorem C3_version_mismatch_witness :
    extract_version C3ex.helperContent = .ok "1.0.0".data ∧
    extract_version_changelog C3ex.changelogContent = .ok ("1.0.1".data, "fix".data) ∧
    "1.0.1".data ≠ "1.0.0".data ∧
    runIteration C3ex = ([], some ("Wrong version (changelog " ++ String.mk "1.0.1".data ++
      " / Helper.js " ++ String.mk "1.0.0".data ++ ")")) :=
  ⟨by rfl, by rfl, by decide,
    C3_version_mismatch C3ex "1.0.0".data "1.0.1".data "fix".data (by rfl) (by rfl)
      (by decide)⟩

/-! ### Descriptor substitution claims (C2) -/

/-- C2 (counterexample): the four placeholder substitutions are not
token-free for every input — a changelog body containing `_DATE_` is
substituted after `_DATE_` itself was replaced, so the written descriptor
still contains `_DATE_`; and a template without `_ZIP_FILENAME_` does not
contain the archive name verbatim. -/
theorem C2_counterexample :
    ("_DATE_".data <:+: buildDescriptorContent "_CHANGELOG_".data "x.zip".data "ab".data
      "20240101000000".data "1.0.0".data "_DATE_".data) ∧
    ¬ ("x.zip".data <:+: buildDescriptorContent "_CHANGELOG_".data "x.zip".data "ab".data
      "20240101000000".data "1.0.0".data "_DATE_".data) := by
  exact ⟨by decide, by decide⟩

/-- C2 (amended): `replace_and_save` substitutes `_ZIP_FILENAME_`, `_SHA1_`,
`_DATE_`, `_CHANGELOG_` in this order, each replacing all occurrences.
Provided every substituted value is insertion-safe for every token
(`SafeIns`: the value is non-empty, does not contain the token, no nonempty
prefix of the token is a suffix of the value, no nonempty suffix of the
token is a prefix of the value, and the value is not a substring of the
token), the descriptor contains no remaining occurrence of any of the four
tokens, and it contains each substituted value verbatim whenever that
value's token occurs at the point of its substitution. -/
theorem C2_substitutions (template zipBase sha1 date version changelog : List Char)
    (hS : ∀ t ∈ [tokZIP, tokSHA1, tokDATE, tokCHLOG],
      ∀ val ∈ [zipBase, sha1, date, changelogHtml version changelog], SafeIns t val) :
    (∀ t ∈ [tokZIP, tokSHA1, tokDATE, tokCHLOG],
      ¬ t <:+: buildDescriptorContent template zipBase sha1 date version changelog)
    ∧
    (tokZIP <:+: template →
      zipBase <:+: buildDescriptorContent template zipBase sha1 date version changelog)
    ∧
    (tokSHA1 <:+: replaceAll tokZIP zipBase template →
      sha1 <:+: buildDescriptorContent template zipBase sha1 date version changelog)
    ∧
    (tokDATE <:+: replaceAll tokSHA1 sha1 (replaceAll tokZIP zipBase template) →
      date <:+: buildDescriptorContent template zipBase sha1 date version changelog)
    ∧
    (tokCHLOG <:+: replaceAll tokDATE date
        (replaceAll tokSHA1 sha1 (replaceAll tokZIP zipBase template)) →
      changelogHtml version changelog <:+:
        buildDescriptorContent template zipBase sha1 date version changelog) := by
  have htZ : tokZIP ≠ [] := by decide
  have htS : tokSHA1 ≠ [] := by decide
  have htD : tokDATE ≠ [] := by decide
  have htC : tokCHLOG ≠ [] := by decide
  have m1 : tokZIP ∈ [tokZIP, tokSHA1, tokDATE, tokCHLOG] := by simp
  have m2 : tokSHA1 ∈ [tokZIP, tokSHA1, tokDATE, tokCHLOG] := by simp
  have m3 : tokDATE ∈ [tokZIP, tokSHA1, tokDATE, tokCHLOG] := by simp
  have m4 : tokCHLOG ∈ [tokZIP, tokSHA1, tokDATE, tokCHLOG] := by simp
  have n1 : zipBase ∈ [zipBase, sha1, date, changelogHtml version changelog] := by simp
  have n2 : sha1 ∈ [zipBase, sha1, date, changelogHtml version changelog] := by simp
  have n3 : date ∈ [zipBase, sha1, date, changelogHtml version changelog] := by simp
  have n4 : changelogHtml version changelog ∈
      [zipBase, sha1, date, changelogHtml version changelog] := by simp
  unfold buildDescriptorContent
  refine ⟨?_, ?_, ?_, ?_, ?_⟩
  · intro t ht
    simp only [List.mem_cons, List.not_mem_nil, or_false] at ht
    rcases ht with rfl | rfl | rfl | rfl
    · have h1 := not_infix_replaceAll htZ (hS tokZIP m1 zipBase n1) template
      have h2 := infix_absent_replaceAll htS (hS tokZIP m1 sha1 n2) _ h1
      have h3 := infix_absent_replaceAll htD (hS tokZIP m1 date n3) _ h2
      exact infix_absent_replaceAll htC (hS tokZIP m1 _ n4) _ h3
    · have h2 := not_infix_replaceAll htS (hS tokSHA1 m2 sha1 n2)
        (replaceAll tokZIP zipBase template)
      have h3 := infix_absent_replaceAll htD (hS tokSHA1 m2 date n3) _ h2
      exact infix_absent_replaceAll htC (hS tokSHA1 m2 _ n4) _ h3
    · have h3 := not_infix_replaceAll htD (hS tokDATE m3 date n3)
        (replaceAll tokSHA1 sha1 (replaceAll tokZIP zipBase template))
      exact infix_absent_replaceAll htC (hS tokDATE m3 _ n4) _ h3
    · exact not_infix_replaceAll htC (hS tokCHLOG m4 _ n4) _
  · intro hin
    have h1 : zipBase <:+: replaceAll tokZIP zipBase template :=
      inserted_infix_replaceAll htZ template hin
    have h2 : zipBase <:+: replaceAll tokSHA1 sha1 (replaceAll tokZIP zipBase template) :=
      infix_preserved_replaceAll htS (hS tokSHA1 m2 zipBase n1) _ h1
    have h3 : zipBase <:+: replaceAll tokDATE date
        (replaceAll tokSHA1 sha1 (replaceAll tokZIP zipBase template)) :=
      infix_preserved_replaceAll htD (hS tokDATE m3 zipBase n1) _ h2
    exact infix_preserved_replaceAll htC (hS tokCHLOG m4 zipBase n1) _ h3
  · intro hin
    have h2 : sha1 <:+: replaceAll tokSHA1 sha1 (replaceAll tokZIP zipBase template) :=
      inserted_infix_replaceAll htS _ hin
    have h3 : sha1 <:+: replaceAll tokDATE date
        (replaceAll tokSHA1 sha1 (replaceAll tokZIP zipBase template)) :=
      infix_preserved_replaceAll htD (hS tokDATE m3 sha1 n2) _ h2
    exact infix_preserved_replaceAll htC (hS tokCHLOG m4 sha1 n2) _ h3
  · intro hin
    have h3 : date <:+: replaceAll tokDATE date
        (replaceAll tokSHA1 sha1 (replaceAll tokZIP zipBase template)) :=
      inserted_infix_replaceAll htD _ hin
    exact infix_preserved_replaceAll htC (hS tokCHLOG m4 date n3) _ h3
  · intro hin
    exact inserted_infix_replaceAll htC _ hin

theorem C2_substitutions_witness :
    SafeIns tokDATE ("2024".data) ∧
    ¬ tokDATE <:+: buildDescriptorContent "_ZIP_FILENAME_ _SHA1_ _DATE_ _CHANGELOG_".data
      "x.zip".data "abc".data "2024".data "9".data "ok".data :=
  ⟨by decide,
    (C2_substitutions "_ZIP_FILENAME_ _SHA1_ _DATE_ _CHANGELOG_".data "x.zip".data "abc".data
      "2024".data "9".data "ok".data (by decide)).1 tokDATE (by simp)⟩

/-! ### Changelog extraction claims (C8) -/

/-- A non-empty run of digits, as matched by `\d+`. -/
def DigitStr (l : List Char) : Prop := l ≠ [] ∧ ∀ c ∈ l, c.isDigit = true

/-- The exact shape matched by `\d{2}/\d{2}/\d{4}`. -/
def DateShape (d : List Char) : Prop :=
  ∃ a b c e f g k i : Char, d = [a, b, '/', c, e, '/', f, g, k, i] ∧
    a.isDigit = true ∧ b.isDigit = true ∧ c.isDigit = true ∧ e.isDigit = true ∧
    f.isDigit = true ∧ g.isDigit = true ∧ k.isDigit = true ∧ i.isDigit = true

/-- The exact shape captured by `(\d+\.\d+\.\d+)`. -/
def VersionShape (v : List Char) : Prop :=
  ∃ a b c, DigitStr a ∧ DigitStr b ∧ DigitStr c ∧ v = a ++ '.' :: b ++ '.' :: c

theorem parseDateAt_of_shape {d : List Char} (rest : List Char) (h : DateShape d) :
    parseDateAt (d ++ rest) = some rest := by
  obtain ⟨a, b, c, e, f, g, k, i, rfl, h1, h2, h3, h4, h5, h6, h7, h8⟩ := h
  simp [parseDateAt, h1, h2, h3, h4, h5, h6, h7, h8]

theorem takeWhile_digit_append {a t : List Char} (ha : ∀ c ∈ a, c.isDigit = true)
    (ht : ∀ x, t.head? = some x → x.isDigit = false) :
    (a ++ t).takeWhile Char.isDigit = a ∧ (a ++ t).dropWhile Char.isDigit = t := by
  induction a with
  | nil =>
    cases t with
    | nil => exact ⟨rfl, rfl⟩
    | cons c t' =>
      have hc := ht c rfl
      simp [List.takeWhile_cons, List.dropWhile_cons, hc]
  | cons c a' ih =>
    have hc : c.isDigit = true := ha c (List.mem_cons_self c a')
    have ih' := ih (fun x hx => ha x (List.mem_cons_of_mem c hx))
    simp [List.takeWhile_cons, List.dropWhile_cons, hc, ih'.1, ih'.2]

theorem parseVersionAt_of_shape {v : List Char} (t : List Char) (hv : VersionShape v)
    (ht : ∀ x, t.head? = some x → x.isDigit = false) :
    parseVersionAt (v ++ t) = some (v, t) := by
  obtain ⟨a, b, c, ⟨hane, ha⟩, ⟨hbne, hb⟩, ⟨hcne, hc⟩, rfl⟩ := hv
  have hdot : ∀ (z : List Char), ∀ x, ('.' :: z).head? = some x → x.isDigit = false := by
    intro z x hx
    have hx' : some '.' = some x := hx
    injection hx' with hx''
    rw [← hx'']
    decide
  have heq1 : (a ++ '.' :: b ++ '.' :: c) ++ t = a ++ ('.' :: (b ++ ('.' :: (c ++ t)))) := by
    simp
  rw [heq1]
  have s1 := takeWhile_digit_append ha (hdot (b ++ ('.' :: (c ++ t))))
  have s2 := takeWhile_digit_append hb (hdot (c ++ t))
  have s3 := takeWhile_digit_append hc ht
  unfold parseVersionAt
  rw [s1.1, s1.2]
  simp only [if_neg (by simpa using hane)]
  rw [s2.1, s2.2]
  simp only [if_neg (by simpa using hbne)]
  rw [s3.1, s3.2]
  simp only [if_neg (by simpa using hcne)]

theorem headerAt_of_shape {d v : List Char} (t : List Char) (hd : DateShape d)
    (hv : VersionShape v) (ht : ∀ x, t.head? = some x → x.isDigit = false) :
    headerAt (d ++ ' ' :: 'v' :: (v ++ t)) = some (v, t) := by
  unfold headerAt
  rw [parseDateAt_of_shape (' ' :: 'v' :: (v ++ t)) hd]
  simp only []
  exact parseVersionAt_of_shape t hv ht

theorem findEarliestDate_split :
    ∀ (mid rest : List Char),
      (∀ i < mid.length, parseDateAt ((mid ++ rest).drop i) = none) →
      (parseDateAt rest).isSome = true →
      findEarliestDate (mid ++ rest) = some (mid, rest) := by
  intro mid
  induction mid with
  | nil =>
    intro rest _ hyes
    cases rest with
    | nil => simp [parseDateAt] at hyes
    | cons c r' =>
      show findEarliestDate (c :: r') = some ([], c :: r')
      unfold findEarliestDate
      rw [if_pos hyes]
  | cons c mid' ih =>
    intro rest hno hyes
    have h0 : parseDateAt (c :: (mid' ++ rest)) = none := by
      have := hno 0 (by simp)
      simpa using this
    show findEarliestDate (c :: (mid' ++ rest)) = some (c :: mid', rest)
    unfold findEarliestDate
    rw [h0]
    simp only [Option.isSome_none, Bool.false_eq_true, if_false]
    rw [ih rest (fun i hi => by
      have := hno (i + 1) (by simp; omega)
      simpa using this) hyes]

theorem searchChangelog_cons_none (c : Char) (s : List Char)
    (h : headerAt (c :: s) = none) : searchChangelog (c :: s) = searchChangelog s := by
  conv_lhs => unfold searchChangelog
  split
  · rename_i v rest heq
    rw [h] at heq
    exact absurd heq (by simp)
  · rfl

theorem searchChangelog_cons_found (c : Char) (s v rest mid rest2 : List Char)
    (hh : headerAt (c :: s) = some (v, rest))
    (hf : findEarliestDate rest = some (mid, rest2)) :
    searchChangelog (c :: s) = some (v, mid) := by
  conv_lhs => unfold searchChangelog
  split
  · rename_i v' rest' heq
    rw [hh] at heq
    injection heq with heq3
    injection heq3 with hv hr
    subst hv
    subst hr
    split
    · rename_i mid' snd' heq2
      rw [hf] at heq2
      injection heq2 with heq4
      injection heq4 with hm _
      rw [hm]
    · rename_i heq2
      rw [hf] at heq2
      exact absurd heq2 (by simp)
  · rename_i heq
    rw [hh] at heq
    exact absurd heq (by simp)

theorem searchChangelog_skip :
    ∀ (pre rest : List Char),
      (∀ i < pre.length, headerAt ((pre ++ rest).drop i) = none) →
      searchChangelog (pre ++ rest) = searchChangelog rest := by
  intro pre
  induction pre with
  | nil => intro rest _; rfl
  | cons c pre' ih =>
    intro rest hpre
    have h0 : headerAt (c :: (pre' ++ rest)) = none := by
      have := hpre 0 (by simp)
      simpa using this
    rw [List.cons_append, searchChangelog_cons_none c (pre' ++ rest) h0]
    exact ih rest (fun i hi => by
      have := hpre (i + 1) (by simp; omega)
      simpa using this)

theorem isDigit_not_space {c : Char} (h : c.isDigit = true) : isPySpace c = false := by
  simp [Char.isDigit] at h
  obtain ⟨h1, h2⟩ := h
  have hb1 : 48 ≤ c.toNat := h1
  have hb2 : c.toNat ≤ 57 := h2
  simp [isPySpace]
  omega

theorem dropWhile_eq_self_of_all {l : List Char} (h : ∀ c ∈ l, isPySpace c = false) :
    l.dropWhile isPySpace = l := by
  cases l with
  | nil => rfl
  | cons c l' => simp [List.dropWhile_cons, h c (List.mem_cons_self c l')]

theorem stripChars_eq_self {l : List Char} (h : ∀ c ∈ l, isPySpace c = false) :
    stripChars l = l := by
  unfold stripChars
  rw [dropWhile_eq_self_of_all h,
    dropWhile_eq_self_of_all (fun c hc => h c (List.mem_reverse.mp hc)),
    List.reverse_reverse]

/-- `match.group(1).strip()` is the identity on a captured version string. -/
theorem versionShape_strip {v : List Char} (hv : VersionShape v) : stripChars v = v := by
  obtain ⟨a, b, c, ⟨_, ha⟩, ⟨_, hb⟩, ⟨_, hc⟩, rfl⟩ := hv
  apply stripChars_eq_self
  intro x hx
  simp only [List.mem_append, List.mem_cons] at hx
  rcases hx with (hxa | rfl | hxb) | rfl | hxc
  · exact isDigit_not_space (ha x hxa)
  · decide
  · exact isDigit_not_space (hb x hxb)
  · decide
  · exact isDigit_not_space (hc x hxc)

theorem extract_version_changelog_of_found {content v mid : List Char}
    (h : searchChangelog content = some (v, mid)) :
    extract_version_changelog content =
      .ok (stripChars v, removeBlankDashLines (stripChars mid)) := by
  unfold extract_version_changelog
  split
  · rename_i heq
    rw [h] at heq
    exact absurd heq (by simp)
  · rename_i v' mid' heq
    rw [h] at heq
    injection heq with heq2
    injection heq2 with hv hm
    rw [hv, hm]

theorem extract_version_changelog_of_none {content : List Char}
    (h : searchChangelog content = none) :
    extract_version_changelog content = .error "Change log extract failed" := by
  unfold extract_version_changelog
  split
  · rfl
  · rename_i v' mid' heq
    rw [h] at heq
    exact absurd heq (by simp)

/-- C8 (amended): on a changelog of the form
`<junk without header match><DD/MM/YYYY vX.Y.Z header><body><date stamp><rest>`
whose body is non-empty, does not start with a digit, and contains no
earlier `DD/MM/YYYY` stamp, the extractor returns the version captured from
the first header and the body up to the next date stamp (which need not be
a full header), stripped and with blank or whitespace-and-hyphen lines
removed; when the pattern does not match it fails with
`Change log extract failed`. -/
theorem C8_changelog_extraction :
    (∀ (pre d1 v mid d2 tail : List Char),
      DateShape d1 → VersionShape v → DateShape d2 →
      (∀ i < pre.length,
        headerAt ((pre ++ (d1 ++ ' ' :: 'v' :: (v ++ (mid ++ (d2 ++ tail))))).drop i) =
          none) →
      mid ≠ [] →
      (∀ x, mid.head? = some x → x.isDigit = false) →
      (∀ i < mid.length, parseDateAt ((mid ++ (d2 ++ tail)).drop i) = none) →
      extract_version_changelog (pre ++ (d1 ++ ' ' :: 'v' :: (v ++ (mid ++ (d2 ++ tail))))) =
        .ok (v, removeBlankDashLines (stripChars mid)))
    ∧
    (∀ content, searchChangelog content = none →
      extract_version_changelog content = .error "Change log extract failed") := by
  constructor
  · intro pre d1 v mid d2 tail hd1 hv hd2 hpre hmidne hmidhead hnodate
    have hthead : ∀ x, (mid ++ (d2 ++ tail)).head? = some x → x.isDigit = false := by
      cases mid with
      | nil => exact absurd rfl hmidne
      | cons m ms => exact fun x hx => hmidhead x hx
    have hheader := headerAt_of_shape (mid ++ (d2 ++ tail)) hd1 hv hthead
    have hfind := findEarliestDate_split mid (d2 ++ tail) hnodate
      (by rw [parseDateAt_of_shape tail hd2]; rfl)
    have hsearch1 : searchChangelog (d1 ++ ' ' :: 'v' :: (v ++ (mid ++ (d2 ++ tail)))) =
        some (v, mid) := by
      obtain ⟨a, b, c, e, f, g, k, i, hdeq, _⟩ := hd1
      subst hdeq
      exact searchChangelog_cons_found a _ v (mid ++ (d2 ++ tail)) mid (d2 ++ tail)
        hheader hfind
    have hfound : searchChangelog
        (pre ++ (d1 ++ ' ' :: 'v' :: (v ++ (mid ++ (d2 ++ tail))))) = some (v, mid) := by
      rw [searchChangelog_skip pre _ hpre]
      exact hsearch1
    rw [extract_version_changelog_of_found hfound, versionShape_strip hv]
  · exact fun content h => extract_version_changelog_of_none h

theorem C8_changelog_extraction_witness :
    extract_version_changelog
        ([] ++ ("01/01/2024".data ++ ' ' :: 'v' ::
          ("1.2.3".data ++ ("\nfix\n".data ++ ("15/02/2024".data ++ " v1.2.4".data))))) =
      .ok ("1.2.3".data, removeBlankDashLines (stripChars "\nfix\n".data)) :=
  C8_changelog_extraction.1 [] "01/01/2024".data "1.2.3".data "\nfix\n".data
    "15/02/2024".data " v1.2.4".data
    ⟨'0', '1', '0', '1', '2', '0', '2', '4', rfl, by decide, by decide, by decide, by decide,
      by decide, by decide, by decide, by decide⟩
    ⟨"1".data, "2".data, "3".data, ⟨by decide, by decide⟩, ⟨by decide, by decide⟩,
      ⟨by decide, by decide⟩, rfl⟩
    ⟨'1', '5', '0', '2', '2', '0', '2', '4', rfl, by decide, by decide, by decide, by decide,
      by decide, by decide, by decide, by decide⟩
    (fun i hi => absurd hi (Nat.not_lt_zero i))
    (by decide)
    (by
      intro x hx
      have hx' : some '\n' = some x := hx
      injection hx' with hxe
      rw [← hxe]
      decide)
    (by decide)

/-- C8 (counterexample): a changelog with two full headers but an embedded
bare date stamp inside the body — the extractor's lazy group stops at the
embedded stamp, so the returned body is not the text between the two
headers. -/
theorem C8_counterexample :
    extract_version_changelog
        "01/01/2024 v1.2.3\nfix of 02/02/2020 bug\n15/02/2024 v1.2.4".data =
      .ok ("1.2.3".data, "fix of".data) ∧
    removeBlankDashLines (stripChars "\nfix of 02/02/2020 bug\n".data) =
      "fix of 02/02/2020 bug".data ∧
    ("fix of".data : List Char) ≠ "fix of 02/02/2020 bug".data := by
  exact ⟨by rfl, by rfl, by decide⟩

/-! ### Witnesses at concrete inputs -/

theorem C4_missing_file_handling_witness :
    (∃ zi : ZipInfo,
      (save_list_to_zip (fun s => s == "src/scripts/GraXpertSuite/a.js")
        ["src/scripts/GraXpertSuite/a.js", "src/scripts/GraXpertSuite/b.js"]
        "GraXpertSuite" "out" "20240101").2 = .ok zi ∧
      "src/scripts/GraXpertSuite/b.js" ∈ zi.deletions ∧
      "src/scripts/GraXpertSuite/b.js" ∉ zi.entries) ∧
    save_list_to_zip (fun s => s == "src/scripts/GraXpertSuite/a.js")
        (["src/scripts/GraXpertSuite/a.js"] ++ "src/scripts/GraXpertSuite/GXSmod.js" :: [])
        "GraXpertSuite" "out" "20240101" =
      ([], .error ("File '" ++ "src/scripts/GraXpertSuite/GXSmod.js" ++ "' not found.")) :=
  ⟨(C4_missing_file_handling (fun s => s == "src/scripts/GraXpertSuite/a.js")
      "GraXpertSuite" "out" "20240101").1
      ["src/scripts/GraXpertSuite/a.js", "src/scripts/GraXpertSuite/b.js"]
      "src/scripts/GraXpertSuite/b.js" (by decide) (by decide) (by decide) (by decide)
      (by decide) (by decide),
    (C4_missing_file_handling (fun s => s == "src/scripts/GraXpertSuite/a.js")
      "GraXpertSuite" "out" "20240101").2
      ["src/scripts/GraXpertSuite/a.js"] [] "src/scripts/GraXpertSuite/GXSmod.js"
      (by decide) (by decide) (by decide) (by decide) (by decide)⟩

theorem C5_manifest_extraction_witness :
    (["a.js", "b.js", "c.js"] : List String) =
      ((splitOnChar ',' ("a.js, b.js, ,  c.js" : String).data).map
        (fun f => String.mk (stripChars f))).filter (fun g => g ≠ "") ∧
    (["a.js", "b.js", "c.js"] : List String) ≠ [] :=
  C5_manifest_extraction.2.1 "m.xml" "a.js, b.js, ,  c.js" ["a.js", "b.js", "c.js"] (by rfl)

theorem C6_valid_list_archives_witness :
    save_list_to_zip (fun _ => true)
        ["src/scripts/GraXpertSuite/a.js", "doc/scripts/b.pdf"] "GraXpertSuite"
        "repository/update-beta/graxpert" "20240101" =
      ([.writeZip
          (joinPath "repository/update-beta/graxpert" ("20240101" ++ "_" ++ "GraXpertSuite"
            ++ ".zip"))
          (["src/scripts/GraXpertSuite/a.js", "doc/scripts/b.pdf"].filter (fun g => g ≠ "")),
        .copyFile
          (joinPath "repository/update-beta/graxpert" ("20240101" ++ "_" ++ "GraXpertSuite"
            ++ ".zip"))
          (joinPath "repository/update-beta/graxpert"
            (if basename "repository/update-beta/graxpert" = "graxpert"
              then "GraXpert-All-In-One.zip" else "GraXpert-Suite.zip"))],
       .ok ⟨joinPath "repository/update-beta/graxpert" ("20240101" ++ "_" ++ "GraXpertSuite"
            ++ ".zip"),
         ["src/scripts/GraXpertSuite/a.js", "doc/scripts/b.pdf"].filter (fun g => g ≠ ""),
         [],
         joinPath "repository/update-beta/graxpert"
           (if basename "repository/update-beta/graxpert" = "graxpert"
             then "GraXpert-All-In-One.zip" else "GraXpert-Suite.zip")⟩) :=
  C6_valid_list_archives (fun _ => true)
    ["src/scripts/GraXpertSuite/a.js", "doc/scripts/b.pdf"] "GraXpertSuite"
    "repository/update-beta/graxpert" "20240101" (by decide) (by decide)

theorem C7_invalid_path_and_duplicates_witness :
    save_list_to_zip (fun _ => true)
        (["src/scripts/GraXpertSuite/a.js"] ++ "bad/path" :: []) "GraXpertSuite" "out"
        "20240101" = ([], .error ("Invalid path " ++ "bad/path")) ∧
    save_list_to_zip (fun _ => true)
        (["src/scripts/GraXpertSuite/a.js"] ++ "src/scripts/GraXpertSuite/a.js" :: [])
        "GraXpertSuite" "out" "20240101" =
      ([], .error ("Duplicate file '" ++ "src/scripts/GraXpertSuite/a.js" ++ "'")) :=
  ⟨(C7_invalid_path_and_duplicates (fun _ => true) "GraXpertSuite" "out" "20240101").2.2.1
      ["src/scripts/GraXpertSuite/a.js"] [] "bad/path" (by decide) (by decide) (by decide)
      (by decide),
    (C7_invalid_path_and_duplicates (fun _ => true) "GraXpertSuite" "out" "20240101").2.2.2
      ["src/scripts/GraXpertSuite/a.js"] [] "src/scripts/GraXpertSuite/a.js" (by decide)
      (by decide) (by decide) (by decide) (by decide)⟩

theorem C9_duplicate_missing_path_witness :
    ∃ zi : ZipInfo,
      (save_list_to_zip (fun _ => false)
        ["src/scripts/GraXpertSuite/b.js", "src/scripts/GraXpertSuite/b.js"]
        "GraXpertSuite" "out" "20240101").2 = .ok zi ∧
      2 ≤ zi.deletions.count "src/scripts/GraXpertSuite/b.js" :=
  C9_duplicate_missing_path (fun _ => false)
    ["src/scripts/GraXpertSuite/b.js", "src/scripts/GraXpertSuite/b.js"]
    "src/scripts/GraXpertSuite/b.js" "GraXpertSuite" "out" "20240101"
    (by decide) (by decide) (by decide) (by decide) (by decide) (by decide)

theorem C10_none_text_wrapped_witness :
    extract_files_from_remove_section "updates.xri" (.remove none) =
      .error ("XML Parsing " ++ "updates.xri" ++ ": " ++ noneSplitMsg) :=
  C10_none_text_wrapped.1 "updates.xri"

end Builder
